import Mathlib

/-! OOJK: playlist of proxy and concrete songs over a metadata cache

A shallow embedding of the classes `Metadata`, `Song`, `ProxySong`,
`ConcreteSong` and `Playlist`.

* a `std::string` is a list of characters (`Str`);
* a `std::map<std::string, V>` is the list of its entries in strictly
  increasing key order (`StdMap V`), which is the order its iterators walk;
* a `std::shared_ptr<MetaContainer>` held by a song is the (never mutated)
  container it points to;
* the static `Metadata::cache` is passed explicitly: a function that reads or
  changes it takes the cache and returns the new one;
* an output stream is the text written to it so far, an input stream the text
  still to be read.
-/

namespace OOJK

/-- A `std::string`. -/
abbrev Str := List Char

/-! ## std::string operations used by the sources -/

/-- The text `const char*` sees behind `s.c_str()`: the characters before the
first NUL. -/
def c_str (s : Str) : Str := s.takeWhile (fun c => decide (c ≠ Char.ofNat 0))

/-- The call `s.substr(pos)`, for `pos <= s.size()`. -/
def substrFrom (s : Str) (pos : Nat) : Str := s.drop pos

/-- The call `s.substr(pos, n)`, for `pos <= s.size()`. -/
def substr (s : Str) (pos n : Nat) : Str := (s.drop pos).take n

/-- Search of `needle` in the text `s` whose first character has index `i`:
the index of the first match, `none` for `npos`. -/
def findFrom (needle : Str) : Str → Nat → Option Nat
  | [], i => if needle = [] then some i else none
  | c :: cs, i => if needle <+: (c :: cs) then some i else findFrom needle cs (i + 1)

/-- The call `s.find(needle, pos)`; `none` is `std::string::npos`. -/
def find (s needle : Str) (pos : Nat) : Option Nat :=
  if pos ≤ s.length then findFrom needle (s.drop pos) pos else none

/-- Scan for `find_last_of`: `acc` is the last index seen so far whose
character is one of `chars`, `i` the index of the head of the rest. -/
def find_last_of_from (chars : Str) : Str → Nat → Option Nat → Option Nat
  | [], _, acc => acc
  | c :: cs, i, acc => find_last_of_from chars cs (i + 1) (if c ∈ chars then some i else acc)

/-- The call `s.find_last_of(chars)`; `none` is `std::string::npos`. -/
def find_last_of (s chars : Str) : Option Nat := find_last_of_from chars s 0 none

/-! ## std::map -/

/-- Entries of a `std::map` after `m[k] = v`: the entry for `k` is replaced
if there is one, otherwise `(k, v)` is inserted at its place in key order. -/
def insertEntry {V : Type} (k : Str) (v : V) : List (Str × V) → List (Str × V)
  | [] => [(k, v)]
  | e :: rest =>
    if k < e.1 then (k, v) :: e :: rest
    else if k = e.1 then (k, v) :: rest
    else e :: insertEntry k v rest

/-- Lookup of a key among the entries of a `std::map`. -/
def findEntry {V : Type} (k : Str) : List (Str × V) → Option V
  | [] => none
  | e :: rest => if e.1 = k then some e.2 else findEntry k rest

theorem insertEntry_fst_mem {V : Type} (k : Str) (v : V) (l : List (Str × V)) (e : Str × V)
    (h : e ∈ insertEntry k v l) : e.1 = k ∨ e ∈ l := by
  induction l with
  | nil => simp [insertEntry] at h; left; rw [h]
  | cons a rest ih =>
    simp only [insertEntry] at h
    split_ifs at h with h1 h2
    · rcases List.mem_cons.1 h with h | h
      · left; rw [h]
      · right; exact h
    · rcases List.mem_cons.1 h with h | h
      · left; rw [h]
      · right; exact List.mem_cons_of_mem _ h
    · rcases List.mem_cons.1 h with h | h
      · right; rw [h]; exact List.mem_cons_self _ _
      · rcases ih h with h | h
        · left; exact h
        · right; exact List.mem_cons_of_mem _ h

theorem insertEntry_ordered {V : Type} (k : Str) (v : V) (l : List (Str × V))
    (h : l.Pairwise (fun a b => a.1 < b.1)) :
    (insertEntry k v l).Pairwise (fun a b => a.1 < b.1) := by
  induction l with
  | nil => simp [insertEntry]
  | cons a rest ih =>
    have hr := (List.pairwise_cons.1 h).2
    have ha := (List.pairwise_cons.1 h).1
    simp only [insertEntry]
    split_ifs with h1 h2
    · refine List.pairwise_cons.2 ⟨?_, h⟩
      intro b hb
      rcases List.mem_cons.1 hb with hb | hb
      · rw [hb]; exact h1
      · exact lt_trans h1 (ha b hb)
    · refine List.pairwise_cons.2 ⟨?_, hr⟩
      intro b hb
      show k < b.1
      rw [h2]; exact ha b hb
    · refine List.pairwise_cons.2 ⟨?_, ih hr⟩
      intro b hb
      rcases insertEntry_fst_mem k v rest b hb with hb | hb
      · rw [hb]
        rcases lt_trichotomy k a.1 with h3 | h3 | h3
        · exact absurd h3 h1
        · exact absurd h3 h2
        · exact h3
      · exact ha b hb

/-- A `std::map<std::string, V>`: its entries in iteration order, which is
strictly increasing key order (so keys are unique). -/
structure StdMap (V : Type) where
  entries : List (Str × V)
  ordered : entries.Pairwise (fun a b => a.1 < b.1)

namespace StdMap

instance {V : Type} [DecidableEq V] : DecidableEq (StdMap V) := fun a b =>
  decidable_of_iff (a.entries = b.entries) (by cases a; cases b; simp)

/-- The empty map (also the result of `clear()`). -/
def empty {V : Type} : StdMap V := ⟨[], List.Pairwise.nil⟩

/-- The call `m.size()`. -/
def size {V : Type} (m : StdMap V) : Nat := m.entries.length

/-- The call `m.find(k)`: the mapped value, `none` for `m.end()`. -/
def find {V : Type} (m : StdMap V) (k : Str) : Option V := findEntry k m.entries

/-- The assignment `m[k] = v`. -/
def set {V : Type} (m : StdMap V) (k : Str) (v : V) : StdMap V :=
  ⟨insertEntry k v m.entries, insertEntry_ordered k v m.entries m.ordered⟩

end StdMap

/-! ## Metadata.h / Metadata.cpp -/

/-- The typedef `MetaContainer`: `std::map<std::string, std::string>`. -/
abbrev MetaContainer := StdMap Str

/-- The static `Metadata::cache`: `std::map<std::string,
std::shared_ptr<MetaContainer>>`. -/
abbrev Cache := StdMap MetaContainer

namespace Metadata

/-- The function `Metadata::readFileMetadata`. -/
def readFileMetadata (path : Str) : MetaContainer :=
  let last_delimeter : Nat :=
    match find_last_of path ['/', '\\'] with
    | none => 0
    | some i => i + 1
  let filename := substrFrom path last_delimeter
  let metadata : MetaContainer := StdMap.empty
  let metadata := metadata.set "copyright".toList "Some One".toList
  let metadata := metadata.set "artist".toList "Some One".toList
  let metadata := metadata.set "album".toList "The Album".toList
  let metadata := metadata.set "title".toList filename
  metadata

/-- The function `Metadata::getFileMetadata`: the returned container and the
cache after the call. The final `return cache[path]` reads the entry that the
assignment before it has just stored. -/
def getFileMetadata (cache : Cache) (path : Str) : MetaContainer × Cache :=
  match cache.find path with
  | some md => (md, cache)
  | none =>
    let cache := cache.set path (readFileMetadata path)
    ((cache.find path).getD StdMap.empty, cache)

/-- The function `Metadata::getCount`: the size of the cache, taken to be in
the range of the `unsigned int` it is returned as. -/
def getCount (cache : Cache) : Nat := cache.size

/-- The function `Metadata::clear`: the cache after the call. -/
def clear (_cache : Cache) : Cache := StdMap.empty

end Metadata

/-! ## Song.h, ProxySong.cpp, ConcreteSong.cpp -/

/-- A `Song` object: its dynamic type (`ProxySong` or `ConcreteSong`) with the
members of that class. The `metadata` pointer is taken to be non-null. -/
inductive Song where
  | ProxySong (path : Str)
  | ConcreteSong (path : Str) (metadata : MetaContainer)
  deriving DecidableEq

/-- The array `ConcreteSong::title_strings`. -/
def ConcreteSong.title_strings : List Str :=
  ["artist".toList, "album".toList, "title".toList]

/-- The three-iterator `std::equal(first1, last1, first2)` with `==` on the
elements; reading past the end of the second range does not happen under the
size check that guards the only call. -/
def stdEqual {α : Type} [DecidableEq α] : List α → List α → Bool
  | [], _ => true
  | _ :: _, [] => false
  | a :: as, b :: bs => decide (a = b) && stdEqual as bs

/-- The function `ConcreteSong::metadataEquals`, `metadata` being the member
of `this`. -/
def ConcreteSong.metadataEquals (metadata other : MetaContainer) : Bool :=
  decide (metadata.size = other.size) && stdEqual metadata.entries other.entries

namespace Song

/-- The virtual `getPath`. -/
def getPath : Song → Str
  | ProxySong path => path
  | ConcreteSong path _ => path

/-- The virtual `clone`: a copy-constructed object of the same class. -/
def clone : Song → Song
  | ProxySong path => ProxySong path
  | ConcreteSong path metadata => ConcreteSong path metadata

/-- The virtual `evaluate`: the returned container and the cache after the
call. -/
def evaluate : Song → Cache → MetaContainer × Cache
  | ProxySong path, cache => Metadata.getFileMetadata cache path
  | ConcreteSong _ metadata, cache => (metadata, cache)

/-- The base `Song::operator==(const Song&)`. -/
def baseEq (this rhs : Song) : Bool := decide (this.getPath = rhs.getPath)

/-- The virtual `operator==(const Song&)`, dispatched on the class of `this`;
the inner match is the `dynamic_cast` of the argument. -/
def opEq : Song → Song → Bool
  | ProxySong path, s =>
    match s with
    | ProxySong ps_path => decide (path = ps_path)
    | ConcreteSong _ _ => baseEq (ProxySong path) s
  | ConcreteSong path metadata, s =>
    match s with
    | ConcreteSong cs_path cs_metadata =>
      decide (path = cs_path) || ConcreteSong.metadataEquals metadata cs_metadata
    | ProxySong _ => baseEq (ConcreteSong path metadata) s

/-- Loop of `ConcreteSong::print` over `title_strings`. -/
def printTitles (metadata : MetaContainer) : List Str → Str → Str
  | [], os => os
  | var :: rest, os =>
    match metadata.find var with
    | some second => printTitles metadata rest (os ++ " ".toList ++ c_str second)
    | none => printTitles metadata rest os

/-- The virtual `print`: the text of the stream after the call. -/
def print : Song → Str → Str
  | ProxySong path, os => os ++ "ProxySong: ".toList ++ c_str path
  | ConcreteSong path metadata, os =>
    printTitles metadata ConcreteSong.title_strings
      (os ++ "ConcreteSong: ".toList ++ c_str path ++ ":".toList)

end Song

/-! ## Playlist.h / Playlist.cpp -/

/-- The object that a `const Song&` argument of a playlist member refers to: a
song outside the playlist, or the playlist's own entry at a position (the
references that `evaluate(song)` returns are to such entries). -/
inductive SongRef where
  | outside (song : Song)
  | entry (k : Nat)

/-- A `Playlist` object: the member `songs`, each element owning its song. -/
structure Playlist where
  songs : List Song
  deriving DecidableEq

namespace Playlist

/-- The default constructor. -/
def new : Playlist := ⟨[]⟩

/-- The function `Playlist::getCount`: the size of `songs`, taken to be in
the range of the `unsigned int` it is returned as. -/
def getCount (this : Playlist) : Nat := this.songs.length

/-- The function `Playlist::clear`. -/
def clear (_this : Playlist) : Playlist := ⟨[]⟩

/-- The function `Playlist::add`. -/
def add (this : Playlist) (song : Song) : Playlist := ⟨this.songs ++ [song.clone]⟩

/-- Loop of `Playlist::remove` from the iterator position on, for an argument
`song` that no `erase` of the loop destroys (an object outside the playlist):
an equal element is erased, any other is stepped over. The loop for an
argument that may be an entry of the playlist is `removeLoopRef`. -/
def removeLoop (song : Song) : List Song → List Song
  | [] => []
  | e :: rest => if e.opEq song then removeLoop song rest else e :: removeLoop song rest

/-- The function `Playlist::remove` for an argument outside the playlist (the
call with any referent is `removeRef`). -/
def remove (this : Playlist) (song : Song) : Playlist := ⟨removeLoop song this.songs⟩

/-- Loop of the template `Playlist::has`. -/
def hasLoop (song : Song) : List Song → Bool
  | [] => false
  | e :: rest => if e.opEq song then true else hasLoop song rest

/-- The template `Playlist::has`. -/
def has (this : Playlist) (song : Song) : Bool := hasLoop song this.songs

/-- The copy assignment `this = pl`; `sameObject` says whether `this == &pl`. -/
def copyAssign (this pl : Playlist) (sameObject : Bool) : Playlist :=
  if sameObject then this
  else ⟨pl.songs.foldl (fun songs s => songs ++ [s.clone]) this.songs⟩

/-- The copy constructor: `*this = pl` on the freshly built object. -/
def copy (pl : Playlist) : Playlist := copyAssign ⟨[]⟩ pl false

/-- The function `Playlist::clone`. -/
def clone (this : Playlist) : Playlist := copy this

/-- Loop of `Playlist::evaluate()`: songs still to visit, `newlist` so far,
cache. -/
def evaluateLoop : List Song → List Song → Cache → List Song × Cache
  | [], newlist, cache => (newlist, cache)
  | song :: rest, newlist, cache =>
    let r := song.evaluate cache
    evaluateLoop rest (newlist ++ [Song.ConcreteSong song.getPath r.1]) r.2

/-- The function `Playlist::evaluate()`: the playlist and the cache after the
call. -/
def evaluate (this : Playlist) (cache : Cache) : Playlist × Cache :=
  let r := evaluateLoop this.songs [] cache
  (⟨r.1⟩, r.2)

/-- Loop of `Playlist::evaluate(const Song&)` from position `i` on, for an
argument `song` that no assignment of the loop destroys (an object outside the
playlist): the elements from there on after the loop, the cache, and the
positions pushed to `evaluated` (a reference to an element is its position in
`songs`). The loop for an argument that may be an entry of the playlist is
`evaluateSongLoopRef`. -/
def evaluateSongLoop (song : Song) : List Song → Nat → Cache → List Song × Cache × List Nat
  | [], _, cache => ([], cache, [])
  | e :: rest, i, cache =>
    if e.opEq song then
      let r := e.evaluate cache
      let t := evaluateSongLoop song rest (i + 1) r.2
      (Song.ConcreteSong e.getPath r.1 :: t.1, t.2.1, i :: t.2.2)
    else
      let t := evaluateSongLoop song rest (i + 1) cache
      (e :: t.1, t.2.1, t.2.2)

/-- The function `Playlist::evaluate(const Song&)` for an argument outside the
playlist (the call with any referent is `evaluateSongRef`): the playlist after the
call, the cache after the call, and the returned list of references. -/
def evaluateSong (this : Playlist) (song : Song) (cache : Cache) :
    Playlist × Cache × List Nat :=
  let t := evaluateSongLoop song this.songs 0 cache
  (⟨t.1⟩, t.2.1, t.2.2)

/-- The distance of the referent of the argument from the iterator, after the
iterator has moved past one element. -/
def stepOwn : Option Nat → Option Nat
  | some (k + 1) => some k
  | _ => none

/-- Loop of `Playlist::remove` with the argument as the reference it is:
`song` is the value of the referent and `own` says where the referent lives,
`some k` for the element `k` places after the iterator, `none` for an object
outside the playlist. Erasing the element that is the referent destroys it;
the loop ends there when it was the last element, and otherwise the next round
compares against the destroyed object, which is undefined behaviour
(`none`). -/
def removeLoopRef (song : Song) : Option Nat → List Song → Option (List Song)
  | _, [] => some []
  | own, e :: rest =>
    if e.opEq song then
      if own = some 0 then
        if rest = [] then some [] else none
      else removeLoopRef song (stepOwn own) rest
    else (removeLoopRef song (stepOwn own) rest).map (fun l => e :: l)

/-- The function `Playlist::remove(const Song&)` on any referent: the playlist
after the call, `none` for undefined behaviour (a position that is no entry
gives no reference at all). -/
def removeRef (this : Playlist) (song : SongRef) : Option Playlist :=
  match song with
  | SongRef.outside s => (removeLoopRef s none this.songs).map Playlist.mk
  | SongRef.entry k =>
    match this.songs[k]? with
    | some s => (removeLoopRef s (some k) this.songs).map Playlist.mk
    | none => none

/-- Loop of `Playlist::evaluate(const Song&)` with the argument as the
reference it is (`song`, `own` as in `removeLoopRef`). The assignment to `*it`
destroys the old element; when that element is the referent and another
element follows, the next round compares against the destroyed object, which
is undefined behaviour (`none`). -/
def evaluateSongLoopRef (song : Song) :
    Option Nat → List Song → Nat → Cache → Option (List Song × Cache × List Nat)
  | _, [], _, cache => some ([], cache, [])
  | own, e :: rest, i, cache =>
    if e.opEq song then
      let r := e.evaluate cache
      if own = some 0 then
        if rest = [] then some ([Song.ConcreteSong e.getPath r.1], r.2, [i]) else none
      else
        (evaluateSongLoopRef song (stepOwn own) rest (i + 1) r.2).map
          (fun t => (Song.ConcreteSong e.getPath r.1 :: t.1, t.2.1, i :: t.2.2))
    else
      (evaluateSongLoopRef song (stepOwn own) rest (i + 1) cache).map
        (fun t => (e :: t.1, t.2.1, t.2.2))

/-- The function `Playlist::evaluate(const Song&)` on any referent: the
playlist, the cache and the returned references after the call, `none` for
undefined behaviour. -/
def evaluateSongRef (this : Playlist) (song : SongRef) (cache : Cache) :
    Option (Playlist × Cache × List Nat) :=
  match song with
  | SongRef.outside s =>
    (evaluateSongLoopRef s none this.songs 0 cache).map (fun t => (⟨t.1⟩, t.2.1, t.2.2))
  | SongRef.entry k =>
    match this.songs[k]? with
    | some s =>
      (evaluateSongLoopRef s (some k) this.songs 0 cache).map (fun t => (⟨t.1⟩, t.2.1, t.2.2))
    | none => none

/-- Loop of `Playlist::print`: each song, then `std::endl`. -/
def printLoop : List Song → Str → Str
  | [], os => os
  | song :: rest, os => printLoop rest (song.print os ++ ['\n'])

/-- The function `Playlist::print`: the text of the stream after the call. -/
def print (this : Playlist) (os : Str) : Str := printLoop this.songs os

/-- The call `std::getline(is, line)`: `none` when no character could be
extracted, else the line and the rest of the stream (the line break is
extracted and dropped). -/
def getline (is : Str) : Option (Str × Str) :=
  if is = [] then none
  else some (is.takeWhile (fun c => decide (c ≠ '\n')),
             (is.dropWhile (fun c => decide (c ≠ '\n'))).drop 1)

/-- Body of the loop of `Playlist::load` for one line. -/
def loadLine (line : Str) (st : Playlist × Cache) : Playlist × Cache :=
  let delimeter : Str := ": ".toList
  let delimeter_len := delimeter.length
  match find line delimeter 0 with
  | none => st
  | some pos =>
    if line.length ≤ pos + delimeter_len then st
    else
      let endpos : Nat :=
        match find line delimeter (pos + delimeter_len) with
        | none => line.length
        | some e => e
      let endpos := endpos - (pos + delimeter_len)
      let type := substr line 0 pos
      let path := substr line (pos + delimeter_len) endpos
      if type = "ProxySong".toList then
        (st.1.add (Song.ProxySong path), st.2)
      else if type = "ConcreteSong".toList then
        let r := Metadata.getFileMetadata st.2 path
        (st.1.add (Song.ConcreteSong path r.1), r.2)
      else st

/-- The `while (std::getline(is, line))` loop of `Playlist::load`, bounded by
`fuel` rounds. -/
def loadLoop : Nat → Str → Playlist × Cache → Playlist × Cache
  | 0, _, st => st
  | fuel + 1, is, st =>
    match getline is with
    | none => st
    | some (line, is') => loadLoop fuel is' (loadLine line st)

/-- The function `Playlist::load` on the stream text `is`: every round of the
loop extracts at least one character, so `is.length + 1` rounds reach the end
of the stream. -/
def load (this : Playlist) (cache : Cache) (is : Str) : Playlist × Cache :=
  loadLoop (is.length + 1) is (this, cache)

end Playlist

/-! ## Facts about std::map -/

theorem findEntry_cons {V : Type} (k : Str) (e : Str × V) (rest : List (Str × V)) :
    findEntry k (e :: rest) = if e.1 = k then some e.2 else findEntry k rest := rfl

theorem findEntry_insertEntry {V : Type} (k : Str) (v : V) (l : List (Str × V)) (k' : Str) :
    findEntry k' (insertEntry k v l) = if k' = k then some v else findEntry k' l := by
  induction l with
  | nil =>
    by_cases h : k' = k
    · simp [insertEntry, findEntry, h]
    · have h' : ¬ k = k' := fun e => h e.symm
      simp [insertEntry, findEntry, h, h']
  | cons e rest ih =>
    by_cases hk : k' = k
    · subst hk
      rw [if_pos rfl]
      by_cases h1 : k' < e.1
      · rw [insertEntry, if_pos h1, findEntry_cons, if_pos rfl]
      · by_cases h2 : k' = e.1
        · rw [insertEntry, if_neg h1, if_pos h2, findEntry_cons, if_pos rfl]
        · have h3 : ¬ e.1 = k' := fun e' => h2 e'.symm
          rw [insertEntry, if_neg h1, if_neg h2, findEntry_cons, if_neg h3, ih, if_pos rfl]
    · have hk' : ¬ k = k' := fun e' => hk e'.symm
      rw [if_neg hk]
      by_cases h1 : k < e.1
      · rw [insertEntry, if_pos h1, findEntry_cons, if_neg hk']
      · by_cases h2 : k = e.1
        · have h3 : ¬ e.1 = k' := fun e' => hk' (h2.trans e')
          rw [insertEntry, if_neg h1, if_pos h2, findEntry_cons, findEntry_cons, if_neg h3]
          exact if_neg hk'
        · rw [insertEntry, if_neg h1, if_neg h2, findEntry_cons, findEntry_cons, ih, if_neg hk]

theorem findEntry_eq_none_iff {V : Type} (k : Str) (l : List (Str × V)) :
    findEntry k l = none ↔ k ∉ l.map Prod.fst := by
  induction l with
  | nil => exact ⟨fun _ h => (by cases h), fun _ => rfl⟩
  | cons e rest ih =>
    rw [findEntry_cons, List.map_cons, List.mem_cons, not_or]
    by_cases h : e.1 = k
    · rw [if_pos h]
      exact ⟨fun h' => (by cases h'), fun h' => absurd h.symm h'.1⟩
    · rw [if_neg h, ih]
      exact ⟨fun hr => ⟨fun e' => h e'.symm, hr⟩, fun hr => hr.2⟩

theorem length_insertEntry_of_none {V : Type} (k : Str) (v : V) (l : List (Str × V))
    (h : findEntry k l = none) : (insertEntry k v l).length = l.length + 1 := by
  induction l with
  | nil => simp [insertEntry]
  | cons e rest ih =>
    by_cases h0 : e.1 = k
    · simp [findEntry, h0] at h
    · have h' : ¬ k = e.1 := fun e' => h0 e'.symm
      simp only [findEntry, h0, if_false] at h
      simp only [insertEntry, h', if_false]
      split_ifs
      · simp
      · simp [ih h]

theorem findEntry_eq_some_iff {V : Type} (k : Str) (v : V) (l : List (Str × V))
    (h : l.Pairwise (fun a b => a.1 < b.1)) : findEntry k l = some v ↔ (k, v) ∈ l := by
  induction l with
  | nil => simp [findEntry]
  | cons e rest ih =>
    have hr := (List.pairwise_cons.1 h).2
    have ha := (List.pairwise_cons.1 h).1
    by_cases h0 : e.1 = k
    · simp only [findEntry, h0, if_true, List.mem_cons, Option.some.injEq]
      constructor
      · intro hv; left; rw [← hv, ← h0]
      · rintro (hv | hv)
        · rw [← hv]
        · have := ha _ hv
          rw [h0] at this
          exact absurd this (lt_irrefl _)
    · simp only [findEntry, h0, if_false, ih hr, List.mem_cons]
      constructor
      · intro hv; right; exact hv
      · rintro (hv | hv)
        · exact absurd (by rw [← hv]) h0
        · exact hv

theorem entries_nodup {V : Type} (m : StdMap V) : m.entries.Nodup :=
  m.ordered.imp (fun {a b} hab e => by rw [e] at hab; exact lt_irrefl _ hab)

theorem keys_nodup {V : Type} (m : StdMap V) : (m.entries.map Prod.fst).Nodup :=
  List.pairwise_map.2 (m.ordered.imp (fun {a b} hab e => by rw [e] at hab; exact lt_irrefl _ hab))

/-- Two maps with the same key-value pairs have the same entry sequence. -/
theorem entries_eq_of_mem_iff {V : Type} (a b : StdMap V)
    (h : ∀ e, e ∈ a.entries ↔ e ∈ b.entries) : a.entries = b.entries := by
  haveI : IsAntisymm (Str × V) (fun a b => a.1 < b.1) :=
    ⟨fun x y h1 h2 => absurd h1 (lt_asymm h2)⟩
  exact List.eq_of_perm_of_sorted
    ((List.perm_ext_iff_of_nodup (entries_nodup a) (entries_nodup b)).2 h) a.ordered b.ordered

theorem StdMap.find_eq_some_iff {V : Type} (m : StdMap V) (k : Str) (v : V) :
    m.find k = some v ↔ (k, v) ∈ m.entries :=
  findEntry_eq_some_iff k v m.entries m.ordered

theorem StdMap.find_set {V : Type} (m : StdMap V) (k : Str) (v : V) (k' : Str) :
    (m.set k v).find k' = if k' = k then some v else m.find k' :=
  findEntry_insertEntry k v m.entries k'

theorem StdMap.size_set_of_none {V : Type} (m : StdMap V) (k : Str) (v : V)
    (h : m.find k = none) : (m.set k v).size = m.size + 1 :=
  length_insertEntry_of_none k v m.entries h

theorem StdMap.ext_entries {V : Type} (a b : StdMap V) (h : a.entries = b.entries) : a = b := by
  cases a; cases b; simp at h; simp [h]

/-! ## Song equality -/

theorem stdEqual_iff {α : Type} [DecidableEq α] (l1 l2 : List α) (h : l1.length = l2.length) :
    stdEqual l1 l2 = true ↔ l1 = l2 := by
  induction l1 generalizing l2 with
  | nil =>
    cases l2 with
    | nil => simp [stdEqual]
    | cons b bs => simp at h
  | cons a as ih =>
    cases l2 with
    | nil => simp at h
    | cons b bs =>
      have h' : as.length = bs.length := by simpa using h
      simp [stdEqual, ih bs h']

theorem metadataEquals_iff (m o : MetaContainer) :
    ConcreteSong.metadataEquals m o = true ↔ m = o := by
  unfold ConcreteSong.metadataEquals StdMap.size
  constructor
  · intro h
    simp only [Bool.and_eq_true, decide_eq_true_eq] at h
    exact StdMap.ext_entries m o ((stdEqual_iff _ _ h.1).1 h.2)
  · intro h
    subst h
    simp [stdEqual_iff]

theorem metadataEquals_iff_pairs (m o : MetaContainer) :
    ConcreteSong.metadataEquals m o = true ↔ ∀ k v, m.find k = some v ↔ o.find k = some v := by
  rw [metadataEquals_iff]
  constructor
  · intro h k v; rw [h]
  · intro h
    apply StdMap.ext_entries
    apply entries_eq_of_mem_iff
    rintro ⟨k, v⟩
    rw [← StdMap.find_eq_some_iff, ← StdMap.find_eq_some_iff]
    exact h k v

/-- C1: the virtual song equality `a == b` holds exactly when the paths are
equal (two proxy songs, or songs of different classes), respectively when the
paths are equal or the two metadata maps hold the same key-value pairs (two
concrete songs). -/
theorem song_equality_by_variant (a b : Song) :
    a.opEq b = true ↔
      match a, b with
      | Song.ProxySong p, Song.ProxySong q => p = q
      | Song.ConcreteSong p m, Song.ConcreteSong q n =>
        p = q ∨ ∀ k v, m.find k = some v ↔ n.find k = some v
      | Song.ProxySong p, Song.ConcreteSong q _ => p = q
      | Song.ConcreteSong p _, Song.ProxySong q => p = q := by
  cases a with
  | ProxySong p =>
    cases b with
    | ProxySong q => simp [Song.opEq]
    | ConcreteSong q n => simp [Song.opEq, Song.baseEq, Song.getPath]
  | ConcreteSong p m =>
    cases b with
    | ProxySong q => simp [Song.opEq, Song.baseEq, Song.getPath]
    | ConcreteSong q n =>
      simp only [Song.opEq, Bool.or_eq_true, decide_eq_true_eq, metadataEquals_iff_pairs]

theorem opEq_self (a : Song) : a.opEq a = true := by
  cases a <;> simp [Song.opEq]

/-! ## Playlist::remove and Playlist::has -/

theorem removeLoop_eq_filter (s : Song) (l : List Song) :
    Playlist.removeLoop s l = l.filter (fun e => !e.opEq s) := by
  induction l with
  | nil => rfl
  | cons e rest ih =>
    by_cases h : e.opEq s = true
    · simp [Playlist.removeLoop, h, ih]
    · simp [Playlist.removeLoop, h, ih]

theorem hasLoop_eq_any (s : Song) (l : List Song) :
    Playlist.hasLoop s l = l.any (fun e => e.opEq s) := by
  induction l with
  | nil => rfl
  | cons e rest ih =>
    by_cases h : e.opEq s = true
    · simp [Playlist.hasLoop, h]
    · simp [Playlist.hasLoop, h, ih]

/-- For an argument `s` outside the playlist: after `remove(s)` the playlist
is the subsequence, in the original order, of the old entries `e` with
`e == s` false; no entry equal to `s` is left, `has(s)` is false, and
`[A, A, B]` with `remove(A)` gives `[B]` (for `B` not equal to `A`). -/
theorem remove_erases_every_equal_entry (pl : Playlist) (s : Song) :
    (pl.remove s).songs = pl.songs.filter (fun e => !e.opEq s) ∧
    (pl.remove s).songs.Sublist pl.songs ∧
    (∀ e ∈ (pl.remove s).songs, e.opEq s = false) ∧
    (pl.remove s).has s = false ∧
    (∀ A B : Song, B.opEq A = false →
      (Playlist.mk [A, A, B]).remove A = Playlist.mk [B]) := by
  have hf : (pl.remove s).songs = pl.songs.filter (fun e => !e.opEq s) :=
    removeLoop_eq_filter s pl.songs
  refine ⟨hf, ?_, ?_, ?_, ?_⟩
  · rw [hf]; exact List.filter_sublist _
  · intro e he
    rw [hf] at he
    simpa using (List.mem_filter.1 he).2
  · unfold Playlist.has
    rw [hasLoop_eq_any, hf]
    simp [List.any_filter]
  · intro A B hB
    simp [Playlist.remove, Playlist.removeLoop, opEq_self, hB]

theorem remove_erases_every_equal_entry_witness :
    (Playlist.mk [Song.ProxySong ['a'], Song.ProxySong ['a'], Song.ProxySong ['b']]).remove
        (Song.ProxySong ['a']) = Playlist.mk [Song.ProxySong ['b']] :=
  (remove_erases_every_equal_entry Playlist.new (Song.ProxySong ['a'])).2.2.2.2
    (Song.ProxySong ['a']) (Song.ProxySong ['b']) (by decide)

/-! ## Metadata::getFileMetadata -/

theorem getFileMetadata_hit (cache : Cache) (p : Str) (md : MetaContainer)
    (h : cache.find p = some md) : Metadata.getFileMetadata cache p = (md, cache) := by
  simp [Metadata.getFileMetadata, h]

theorem getFileMetadata_miss (cache : Cache) (p : Str) (h : cache.find p = none) :
    Metadata.getFileMetadata cache p =
      (Metadata.readFileMetadata p, cache.set p (Metadata.readFileMetadata p)) := by
  simp [Metadata.getFileMetadata, h, StdMap.find_set]

theorem getFileMetadata_find (cache : Cache) (p k : Str) :
    (Metadata.getFileMetadata cache p).2.find k =
      if k = p then some (Metadata.getFileMetadata cache p).1 else cache.find k := by
  cases h : cache.find p with
  | none =>
    rw [getFileMetadata_miss cache p h]
    exact StdMap.find_set cache p _ k
  | some md =>
    rw [getFileMetadata_hit cache p md h]
    by_cases hk : k = p
    · rw [if_pos hk, hk]; exact h
    · rw [if_neg hk]

/-- C6: `getFileMetadata(p)` on a cached path returns the cached container
and leaves the cache unchanged; on a path that is not cached it returns
`readFileMetadata(p)` and the new cache is the old one plus exactly the entry
for `p` (one more entry); so a second call with the same path returns the same
container and changes nothing. -/
theorem getFileMetadata_get_or_load (cache : Cache) (p : Str) :
    (∀ md, cache.find p = some md → Metadata.getFileMetadata cache p = (md, cache)) ∧
    (cache.find p = none →
      (Metadata.getFileMetadata cache p).1 = Metadata.readFileMetadata p ∧
      (∀ k, (Metadata.getFileMetadata cache p).2.find k =
        if k = p then some (Metadata.readFileMetadata p) else cache.find k) ∧
      Metadata.getCount (Metadata.getFileMetadata cache p).2 = Metadata.getCount cache + 1) ∧
    Metadata.getFileMetadata (Metadata.getFileMetadata cache p).2 p =
      ((Metadata.getFileMetadata cache p).1, (Metadata.getFileMetadata cache p).2) := by
  refine ⟨fun md h => getFileMetadata_hit cache p md h, ?_, ?_⟩
  · intro h
    rw [getFileMetadata_miss cache p h]
    exact ⟨rfl, fun k => StdMap.find_set cache p _ k, StdMap.size_set_of_none cache p _ h⟩
  · apply getFileMetadata_hit
    rw [getFileMetadata_find, if_pos rfl]

theorem getFileMetadata_get_or_load_witness :
    Metadata.getCount (Metadata.getFileMetadata StdMap.empty ['f']).2 = 1 ∧
    Metadata.getFileMetadata
        (Metadata.getFileMetadata StdMap.empty ['f']).2 ['f'] =
      (Metadata.readFileMetadata ['f'], (Metadata.getFileMetadata StdMap.empty ['f']).2) :=
  ⟨((getFileMetadata_get_or_load StdMap.empty ['f']).2.1 (by decide)).2.2,
   (getFileMetadata_get_or_load (Metadata.getFileMetadata StdMap.empty ['f']).2 ['f']).1
     (Metadata.readFileMetadata ['f']) (by decide)⟩

/-! ## Playlist::evaluate() -/

/-- Cache `c'` holds every entry of `c`, and whatever else it holds maps a
path to the reader's result for that path. -/
def CacheExtends (c c' : Cache) : Prop :=
  ∀ k, c'.find k = c.find k ∨
    (c.find k = none ∧ c'.find k = some (Metadata.readFileMetadata k))

theorem cacheExtends_refl (c : Cache) : CacheExtends c c := fun _ => Or.inl rfl

theorem cacheExtends_getFileMetadata (c c' : Cache) (p : Str) (h : CacheExtends c c') :
    CacheExtends c (Metadata.getFileMetadata c' p).2 := by
  intro k
  rw [getFileMetadata_find]
  by_cases hk : k = p
  · subst hk
    rw [if_pos rfl]
    cases hc : c'.find k with
    | none =>
      rw [getFileMetadata_miss c' k hc]
      rcases h k with h1 | h1
      · right; exact ⟨by rw [← h1, hc], rfl⟩
      · rw [hc] at h1; cases h1.2
    | some md =>
      rw [getFileMetadata_hit c' k md hc]
      rcases h k with h1 | h1
      · left; rw [← h1, hc]
      · right; exact ⟨h1.1, by rw [← h1.2, hc]⟩
  · rw [if_neg hk]; exact h k

theorem getFileMetadata_fst_of_extends (c c' : Cache) (p : Str) (h : CacheExtends c c') :
    (Metadata.getFileMetadata c' p).1 = (Metadata.getFileMetadata c p).1 := by
  cases hc : c.find p with
  | none =>
    rw [getFileMetadata_miss c p hc]
    rcases h p with h1 | h1
    · rw [hc] at h1; rw [getFileMetadata_miss c' p h1]
    · rw [getFileMetadata_hit c' p _ h1.2]
  | some md =>
    rw [getFileMetadata_hit c p md hc]
    rcases h p with h1 | h1
    · rw [hc] at h1; rw [getFileMetadata_hit c' p md h1]
    · rw [hc] at h1; cases h1.1

theorem evaluate_fst_of_extends (e : Song) (c c' : Cache) (h : CacheExtends c c') :
    (e.evaluate c').1 = (e.evaluate c).1 := by
  cases e with
  | ProxySong p => exact getFileMetadata_fst_of_extends c c' p h
  | ConcreteSong p m => rfl

theorem cacheExtends_evaluate (e : Song) (c c' : Cache) (h : CacheExtends c c') :
    CacheExtends c (e.evaluate c').2 := by
  cases e with
  | ProxySong p => exact cacheExtends_getFileMetadata c c' p h
  | ConcreteSong p m => exact h

theorem evaluateLoop_acc (songs newlist : List Song) (c : Cache) :
    Playlist.evaluateLoop songs newlist c =
      (newlist ++ (Playlist.evaluateLoop songs [] c).1, (Playlist.evaluateLoop songs [] c).2) := by
  induction songs generalizing newlist c with
  | nil => simp [Playlist.evaluateLoop]
  | cons e rest ih =>
    simp only [Playlist.evaluateLoop]
    rw [ih (newlist ++ _), ih ([] ++ _)]
    simp

theorem evaluateLoop_cons (e : Song) (rest : List Song) (c : Cache) :
    Playlist.evaluateLoop (e :: rest) [] c =
      (Song.ConcreteSong e.getPath (e.evaluate c).1 ::
          (Playlist.evaluateLoop rest [] (e.evaluate c).2).1,
        (Playlist.evaluateLoop rest [] (e.evaluate c).2).2) := by
  simp only [Playlist.evaluateLoop]
  rw [evaluateLoop_acc]
  simp

theorem evaluateLoop_length (songs : List Song) (c : Cache) :
    (Playlist.evaluateLoop songs [] c).1.length = songs.length := by
  induction songs generalizing c with
  | nil => rfl
  | cons e rest ih => rw [evaluateLoop_cons]; simp [ih]

theorem cacheExtends_evaluateLoop (songs : List Song) (c0 c : Cache) (h : CacheExtends c0 c) :
    CacheExtends c0 (Playlist.evaluateLoop songs [] c).2 := by
  induction songs generalizing c with
  | nil => exact h
  | cons e rest ih =>
    rw [evaluateLoop_cons]
    exact ih _ (cacheExtends_evaluate e c0 c h)

theorem evaluateLoop_eq_map (songs : List Song) (c0 c : Cache) (h : CacheExtends c0 c) :
    (Playlist.evaluateLoop songs [] c).1 =
      songs.map (fun e => Song.ConcreteSong e.getPath (e.evaluate c0).1) := by
  induction songs generalizing c with
  | nil => rfl
  | cons e rest ih =>
    rw [evaluateLoop_cons]
    simp only [List.map_cons]
    rw [ih _ (cacheExtends_evaluate e c0 c h), evaluate_fst_of_extends e c0 c h]

theorem evaluateLoop_getElem (songs : List Song) (c : Cache) (i : Nat) (h : i < songs.length) :
    (Playlist.evaluateLoop songs [] c).1[i]? =
      some (Song.ConcreteSong (songs[i]).getPath
        ((songs[i]).evaluate (Playlist.evaluateLoop (songs.take i) [] c).2).1) := by
  induction songs generalizing c i with
  | nil => simp at h
  | cons e rest ih =>
    rw [evaluateLoop_cons]
    cases i with
    | zero => simp [Playlist.evaluateLoop]
    | succ j =>
      have hj : j < rest.length := by simpa using h
      simp only [List.getElem?_cons_succ, List.take_succ_cons, List.getElem_cons_succ]
      rw [ih _ j hj, evaluateLoop_cons]

/-- C3: after `evaluate()` the playlist has the same length and every entry
is a concrete song with the old entry's path and the old entry's `evaluate()`
result, taken on the cache as the loop finds it at that entry; that result is
`getFileMetadata(path)` of the cache before the call for a proxy song and the
held container for a concrete song. -/
theorem evaluate_resolves_every_entry (pl : Playlist) (cache : Cache) :
    (pl.evaluate cache).1.getCount = pl.getCount ∧
    (pl.evaluate cache).1.songs = pl.songs.map (fun e =>
      Song.ConcreteSong e.getPath
        (match e with
          | Song.ProxySong p => (Metadata.getFileMetadata cache p).1
          | Song.ConcreteSong _ m => m)) ∧
    ∀ (i : Nat) (h : i < pl.songs.length),
      (pl.evaluate cache).1.songs[i]? =
        some (Song.ConcreteSong (pl.songs[i]).getPath
          ((pl.songs[i]).evaluate ((Playlist.mk (pl.songs.take i)).evaluate cache).2).1) := by
  refine ⟨evaluateLoop_length pl.songs cache, ?_, ?_⟩
  · show (Playlist.evaluateLoop pl.songs [] cache).1 = _
    rw [evaluateLoop_eq_map pl.songs cache cache (cacheExtends_refl cache)]
    apply List.map_congr_left
    intro e _
    cases e <;> rfl
  · intro i h
    exact evaluateLoop_getElem pl.songs cache i h

theorem evaluate_resolves_every_entry_witness :
    ((Playlist.mk [Song.ProxySong ['f']]).evaluate StdMap.empty).1.songs[0]? =
      some (Song.ConcreteSong ['f'] (Metadata.readFileMetadata ['f'])) :=
  (evaluate_resolves_every_entry (Playlist.mk [Song.ProxySong ['f']]) StdMap.empty).2.2 0
    (by decide)

theorem evaluateLoop_concrete (songs : List Song) (c : Cache)
    (h : ∀ e ∈ songs, ∃ p m, e = Song.ConcreteSong p m) :
    Playlist.evaluateLoop songs [] c = (songs, c) := by
  induction songs generalizing c with
  | nil => rfl
  | cons e rest ih =>
    obtain ⟨p, m, he⟩ := h e (List.mem_cons_self _ _)
    subst he
    rw [evaluateLoop_cons]
    simp only [Song.evaluate, Song.getPath]
    rw [ih c (fun e' he' => h e' (List.mem_cons_of_mem _ he'))]

theorem evaluate_all_concrete (pl : Playlist) (cache : Cache) :
    ∀ e ∈ (pl.evaluate cache).1.songs, ∃ p m, e = Song.ConcreteSong p m := by
  intro e he
  have h := (evaluateLoop_eq_map pl.songs cache cache (cacheExtends_refl cache))
  change e ∈ (Playlist.evaluateLoop pl.songs [] cache).1 at he
  rw [h] at he
  obtain ⟨a, _, ha⟩ := List.mem_map.1 he
  exact ⟨_, _, ha.symm⟩

theorem evaluate_of_concrete (pl : Playlist) (c : Cache)
    (h : ∀ e ∈ pl.songs, ∃ p m, e = Song.ConcreteSong p m) : pl.evaluate c = (pl, c) := by
  unfold Playlist.evaluate
  rw [evaluateLoop_concrete pl.songs c h]

/-- C4: `evaluate()` is idempotent. On an evaluated playlist a further
`evaluate()` changes neither the playlist nor the cache, whatever the cache
holds by then: two calls give the same printed text and the same cache entry
count as one call, and when the cache is cleared between the two calls the
printed text is still that of one call and the second call leaves the cleared
cache as it is (no entry). -/
theorem evaluate_idempotent (pl : Playlist) (cache c2 : Cache) (os : Str) :
    (pl.evaluate cache).1.evaluate c2 = ((pl.evaluate cache).1, c2) ∧
    ((pl.evaluate cache).1.evaluate (pl.evaluate cache).2).1.print os =
      (pl.evaluate cache).1.print os ∧
    Metadata.getCount ((pl.evaluate cache).1.evaluate (pl.evaluate cache).2).2 =
      Metadata.getCount (pl.evaluate cache).2 ∧
    ((pl.evaluate cache).1.evaluate (Metadata.clear (pl.evaluate cache).2)).1.print os =
      (pl.evaluate cache).1.print os ∧
    Metadata.getCount
        ((pl.evaluate cache).1.evaluate (Metadata.clear (pl.evaluate cache).2)).2 =
      Metadata.getCount (Metadata.clear (pl.evaluate cache).2) ∧
    Metadata.getCount (Metadata.clear (pl.evaluate cache).2) = 0 := by
  have h : ∀ c : Cache, (pl.evaluate cache).1.evaluate c = ((pl.evaluate cache).1, c) :=
    fun c => evaluate_of_concrete _ c (evaluate_all_concrete pl cache)
  refine ⟨h c2, ?_, ?_, ?_, ?_, rfl⟩
  · rw [h]
  · rw [h]
  · rw [h]
  · rw [h]

/-! ## Cache memoization -/

theorem size_eq_keys_length {V : Type} (m : StdMap V) :
    m.size = (m.entries.map Prod.fst).length := by
  simp [StdMap.size]

theorem mem_keys_iff {V : Type} (m : StdMap V) (k : Str) :
    k ∈ m.entries.map Prod.fst ↔ m.find k ≠ none := by
  have := findEntry_eq_none_iff k m.entries
  unfold StdMap.find
  constructor
  · intro h hn; exact (this.1 hn) h
  · intro h; by_contra hn; exact h (this.2 hn)

theorem getFileMetadata_find_ne_none (c : Cache) (p k : Str) :
    (Metadata.getFileMetadata c p).2.find k ≠ none ↔ k = p ∨ c.find k ≠ none := by
  rw [getFileMetadata_find]
  by_cases hk : k = p
  · simp [hk]
  · simp [hk]

theorem evaluateLoop_find_ne_none (songs : List Song) (c : Cache) (k : Str)
    (h : ∀ s ∈ songs, ∃ p, s = Song.ProxySong p) :
    (Playlist.evaluateLoop songs [] c).2.find k ≠ none ↔
      c.find k ≠ none ∨ k ∈ songs.map Song.getPath := by
  induction songs generalizing c with
  | nil => simp [Playlist.evaluateLoop]
  | cons e rest ih =>
    obtain ⟨p, he⟩ := h e (List.mem_cons_self _ _)
    subst he
    rw [evaluateLoop_cons, ih _ (fun s hs => h s (List.mem_cons_of_mem _ hs))]
    simp only [Song.evaluate, Song.getPath, List.map_cons, List.mem_cons]
    rw [getFileMetadata_find_ne_none]
    constructor
    · rintro ((h1 | h1) | h1)
      · right; left; exact h1
      · left; exact h1
      · right; right; exact h1
    · rintro (h1 | h1 | h1)
      · left; right; exact h1
      · left; left; exact h1
      · right; exact h1

theorem evaluateLoop_cache_unchanged (songs : List Song) (c : Cache)
    (h : ∀ s ∈ songs, c.find s.getPath ≠ none) :
    (Playlist.evaluateLoop songs [] c).2 = c := by
  induction songs with
  | nil => rfl
  | cons e rest ih =>
    rw [evaluateLoop_cons]
    have he : (e.evaluate c).2 = c := by
      cases e with
      | ConcreteSong p m => rfl
      | ProxySong p =>
        have hp := h (Song.ProxySong p) (List.mem_cons_self _ _)
        simp only [Song.getPath] at hp
        cases hf : c.find p with
        | none => exact absurd hf hp
        | some md => simp only [Song.evaluate]; rw [getFileMetadata_hit c p md hf]
    rw [he]
    exact ih (fun s hs => h s (List.mem_cons_of_mem _ hs))

theorem empty_find {V : Type} (k : Str) : (StdMap.empty : StdMap V).find k = none := rfl

/-- C5: from a cleared cache, `evaluate()` on a playlist of proxy songs
leaves exactly as many cache entries as there are distinct paths among the
songs, and `evaluate()` on a further playlist over those paths leaves the
count there. -/
theorem cache_memoization (pl : Playlist) (cache : Cache)
    (hpl : ∀ s ∈ pl.songs, ∃ p, s = Song.ProxySong p) :
    Metadata.getCount (pl.evaluate (Metadata.clear cache)).2 =
      (pl.songs.map Song.getPath).dedup.length ∧
    ∀ pl2 : Playlist, (∀ s ∈ pl2.songs, s.getPath ∈ pl.songs.map Song.getPath) →
      Metadata.getCount (pl2.evaluate (pl.evaluate (Metadata.clear cache)).2).2 =
        (pl.songs.map Song.getPath).dedup.length := by
  have hmem : ∀ k, (pl.evaluate (Metadata.clear cache)).2.find k ≠ none ↔
      k ∈ pl.songs.map Song.getPath := by
    intro k
    have := evaluateLoop_find_ne_none pl.songs (Metadata.clear cache) k hpl
    simp only [Metadata.clear, empty_find, ne_eq, not_true_eq_false, false_or] at this
    exact this
  have hcount : Metadata.getCount (pl.evaluate (Metadata.clear cache)).2 =
      (pl.songs.map Song.getPath).dedup.length := by
    unfold Metadata.getCount
    rw [size_eq_keys_length]
    apply List.Perm.length_eq
    rw [List.perm_ext_iff_of_nodup (keys_nodup _) (List.nodup_dedup _)]
    intro k
    rw [mem_keys_iff, hmem, List.mem_dedup]
  refine ⟨hcount, ?_⟩
  intro pl2 h2
  have : (pl2.evaluate (pl.evaluate (Metadata.clear cache)).2).2 =
      (pl.evaluate (Metadata.clear cache)).2 :=
    evaluateLoop_cache_unchanged pl2.songs _ (fun s hs => (hmem _).2 (h2 s hs))
  rw [this, hcount]

theorem cache_memoization_witness :
    Metadata.getCount ((Playlist.mk [Song.ProxySong ['f'], Song.ProxySong ['g'],
      Song.ProxySong ['f']]).evaluate (Metadata.clear StdMap.empty)).2 = 2 :=
  (cache_memoization
    (Playlist.mk [Song.ProxySong ['f'], Song.ProxySong ['g'], Song.ProxySong ['f']])
    StdMap.empty
    (by
      intro s hs
      simp only [List.mem_cons, List.mem_singleton, List.not_mem_nil, or_false] at hs
      rcases hs with h | h | h <;> exact ⟨_, h⟩)).1

/-! ## Playlist::evaluate(const Song&) -/

theorem evaluateSongLoop_cons (s e : Song) (rest : List Song) (i : Nat) (c : Cache) :
    Playlist.evaluateSongLoop s (e :: rest) i c =
      if e.opEq s then
        (Song.ConcreteSong e.getPath (e.evaluate c).1 ::
            (Playlist.evaluateSongLoop s rest (i + 1) (e.evaluate c).2).1,
          (Playlist.evaluateSongLoop s rest (i + 1) (e.evaluate c).2).2.1,
          i :: (Playlist.evaluateSongLoop s rest (i + 1) (e.evaluate c).2).2.2)
      else
        (e :: (Playlist.evaluateSongLoop s rest (i + 1) c).1,
          (Playlist.evaluateSongLoop s rest (i + 1) c).2.1,
          (Playlist.evaluateSongLoop s rest (i + 1) c).2.2) := rfl

theorem evaluateSongLoop_index_irrelevant (s : Song) (songs : List Song) (i j : Nat) (c : Cache) :
    (Playlist.evaluateSongLoop s songs i c).1 = (Playlist.evaluateSongLoop s songs j c).1 ∧
    (Playlist.evaluateSongLoop s songs i c).2.1 = (Playlist.evaluateSongLoop s songs j c).2.1 := by
  induction songs generalizing i j c with
  | nil => exact ⟨rfl, rfl⟩
  | cons e rest ih =>
    rw [evaluateSongLoop_cons, evaluateSongLoop_cons]
    by_cases h : e.opEq s = true
    · rw [if_pos h, if_pos h]
      exact ⟨by rw [(ih (i + 1) (j + 1) _).1], (ih (i + 1) (j + 1) _).2⟩
    · rw [if_neg h, if_neg h]
      exact ⟨by rw [(ih (i + 1) (j + 1) _).1], (ih (i + 1) (j + 1) _).2⟩

theorem cacheExtends_evaluateSongLoop (s : Song) (songs : List Song) (i : Nat) (c0 c : Cache)
    (h : CacheExtends c0 c) : CacheExtends c0 (Playlist.evaluateSongLoop s songs i c).2.1 := by
  induction songs generalizing i c with
  | nil => exact h
  | cons e rest ih =>
    rw [evaluateSongLoop_cons]
    by_cases he : e.opEq s = true
    · rw [if_pos he]; exact ih _ _ (cacheExtends_evaluate e c0 c h)
    · rw [if_neg he]; exact ih _ _ h

theorem evaluateSongLoop_eq_map (s : Song) (songs : List Song) (i : Nat) (c0 c : Cache)
    (h : CacheExtends c0 c) :
    (Playlist.evaluateSongLoop s songs i c).1 =
      songs.map (fun e =>
        if e.opEq s then Song.ConcreteSong e.getPath (e.evaluate c0).1 else e) := by
  induction songs generalizing i c with
  | nil => rfl
  | cons e rest ih =>
    rw [evaluateSongLoop_cons]
    by_cases he : e.opEq s = true
    · rw [if_pos he]
      simp only [List.map_cons, if_pos he]
      rw [ih _ _ (cacheExtends_evaluate e c0 c h), evaluate_fst_of_extends e c0 c h]
    · rw [if_neg he]
      simp only [List.map_cons, if_neg he]
      rw [ih _ _ h]

theorem evaluateSongLoop_getElem (s : Song) (songs : List Song) (c : Cache) (i : Nat)
    (h : i < songs.length) :
    (Playlist.evaluateSongLoop s songs 0 c).1[i]? =
      some (if (songs[i]).opEq s then
        Song.ConcreteSong (songs[i]).getPath
          ((songs[i]).evaluate (Playlist.evaluateSongLoop s (songs.take i) 0 c).2.1).1
        else songs[i]) := by
  induction songs generalizing c i with
  | nil => simp at h
  | cons e rest ih =>
    cases i with
    | zero =>
      rw [evaluateSongLoop_cons]
      by_cases he : e.opEq s = true
      · simp [he, Playlist.evaluateSongLoop]
      · simp [he]
    | succ j =>
      have hj : j < rest.length := by simpa using h
      simp only [List.take_succ_cons, List.getElem_cons_succ]
      rw [evaluateSongLoop_cons, evaluateSongLoop_cons]
      by_cases he : e.opEq s = true
      · rw [if_pos he, if_pos he]
        simp only [List.getElem?_cons_succ]
        rw [(evaluateSongLoop_index_irrelevant s rest 1 0 _).1,
          (evaluateSongLoop_index_irrelevant s (rest.take j) 1 0 _).2, ih _ j hj]
      · rw [if_neg he, if_neg he]
        simp only [List.getElem?_cons_succ]
        rw [(evaluateSongLoop_index_irrelevant s rest 1 0 _).1,
          (evaluateSongLoop_index_irrelevant s (rest.take j) 1 0 _).2, ih _ j hj]

theorem evaluateSongLoop_positions (s : Song) (songs : List Song) (i : Nat) (c : Cache) :
    (Playlist.evaluateSongLoop s songs i c).2.2 =
      ((List.range songs.length).filter (fun j =>
        match songs[j]? with
        | some e => e.opEq s
        | none => false)).map (fun j => j + i) := by
  induction songs generalizing i c with
  | nil => rfl
  | cons e rest ih =>
    rw [evaluateSongLoop_cons]
    have hshift : ∀ l : List Nat, (l.map Nat.succ).map (fun j => j + i) =
        l.map (fun j => j + (i + 1)) := by
      intro l
      rw [List.map_map]
      apply List.map_congr_left
      intro a _
      simp only [Function.comp, Nat.succ_eq_add_one]
      omega
    have hfun : ((fun j => match (e :: rest)[j]? with
        | some e => e.opEq s
        | none => false) ∘ Nat.succ) = (fun j => match rest[j]? with
        | some e => e.opEq s
        | none => false) := by
      funext j
      simp only [Function.comp, Nat.succ_eq_add_one, List.getElem?_cons_succ]
    by_cases he : e.opEq s = true
    · rw [if_pos he]
      simp only [List.length_cons, List.range_succ_eq_map, List.filter_cons,
        List.getElem?_cons_zero, he, if_true, List.map_cons, Nat.zero_add, List.filter_map]
      rw [ih, hshift, hfun]
    · rw [if_neg he]
      have he' : e.opEq s = false := by simpa using he
      simp only [List.length_cons, List.range_succ_eq_map, List.filter_cons,
        List.getElem?_cons_zero, he', List.filter_map]
      rw [ih, hfun]
      simp only [Bool.false_eq_true, if_false]
      rw [hshift]

/-- For an argument `s` outside the playlist: `evaluate(s)` keeps the length,
replaces each entry `e` with `e == s` by the concrete song of `e`'s path and `e`'s `evaluate()` result (taken on the
cache as the loop finds it at that entry, which is `getFileMetadata(path)` of
the cache before the call for a proxy song and the held container for a
concrete song), leaves every other entry as it is at its position, and returns
one reference per entry that was equal to `s`, in playlist order. -/
theorem evaluateSong_resolves_matching (pl : Playlist) (s : Song) (cache : Cache) :
    (pl.evaluateSong s cache).1.getCount = pl.getCount ∧
    (pl.evaluateSong s cache).1.songs = pl.songs.map (fun e =>
      if e.opEq s then
        Song.ConcreteSong e.getPath
          (match e with
            | Song.ProxySong p => (Metadata.getFileMetadata cache p).1
            | Song.ConcreteSong _ m => m)
      else e) ∧
    (∀ (i : Nat) (h : i < pl.songs.length),
      (pl.evaluateSong s cache).1.songs[i]? =
        some (if (pl.songs[i]).opEq s then
          Song.ConcreteSong (pl.songs[i]).getPath
            ((pl.songs[i]).evaluate
              ((Playlist.mk (pl.songs.take i)).evaluateSong s cache).2.1).1
          else pl.songs[i])) ∧
    (pl.evaluateSong s cache).2.2 =
      (List.range pl.songs.length).filter (fun i =>
        match pl.songs[i]? with
        | some e => e.opEq s
        | none => false) := by
  have hmap : (pl.evaluateSong s cache).1.songs = pl.songs.map (fun e =>
      if e.opEq s then
        Song.ConcreteSong e.getPath
          (match e with
            | Song.ProxySong p => (Metadata.getFileMetadata cache p).1
            | Song.ConcreteSong _ m => m)
      else e) := by
    show (Playlist.evaluateSongLoop s pl.songs 0 cache).1 = _
    rw [evaluateSongLoop_eq_map s pl.songs 0 cache cache (cacheExtends_refl cache)]
    apply List.map_congr_left
    intro e _
    cases e <;> rfl
  refine ⟨?_, hmap, ?_, ?_⟩
  · unfold Playlist.getCount
    rw [hmap, List.length_map]
  · intro i h
    exact evaluateSongLoop_getElem s pl.songs cache i h
  · show (Playlist.evaluateSongLoop s pl.songs 0 cache).2.2 = _
    rw [evaluateSongLoop_positions]
    simp

theorem evaluateSong_resolves_matching_witness :
    ((Playlist.mk [Song.ProxySong ['f'], Song.ProxySong ['g']]).evaluateSong
        (Song.ProxySong ['g']) StdMap.empty).1.songs[1]? =
      some (Song.ConcreteSong ['g'] (Metadata.readFileMetadata ['g'])) :=
  (evaluateSong_resolves_matching (Playlist.mk [Song.ProxySong ['f'], Song.ProxySong ['g']])
    (Song.ProxySong ['g']) StdMap.empty).2.2.1 1 (by decide)

/-! ## Copies of a playlist -/

theorem clone_eq (e : Song) : e.clone = e := by
  cases e <;> rfl

theorem foldl_clone (l init : List Song) :
    l.foldl (fun songs s => songs ++ [s.clone]) init = init ++ l := by
  induction l generalizing init with
  | nil => simp
  | cons e rest ih =>
    simp only [List.foldl_cons]
    rw [ih, clone_eq]
    simp

theorem copyAssign_songs (dst src : Playlist) :
    (dst.copyAssign src false).songs = dst.songs ++ src.songs := by
  simp [Playlist.copyAssign, foldl_clone]

/-- A mutating member call on a playlist object. -/
inductive Call where
  | add (song : Song)
  | remove (song : Song)
  | clear
  | evaluate
  | evaluateSong (song : Song)

/-- The playlist and the cache after the call. -/
def Call.run : Call → Playlist → Cache → Playlist × Cache
  | Call.add song, pl, cache => (pl.add song, cache)
  | Call.remove song, pl, cache => (pl.remove song, cache)
  | Call.clear, pl, cache => (pl.clear, cache)
  | Call.evaluate, pl, cache => pl.evaluate cache
  | Call.evaluateSong song, pl, cache =>
    ((pl.evaluateSong song cache).1, (pl.evaluateSong song cache).2.1)

/-- A client with two playlist objects, as `pl1` and `pl2 = pl1` of the
tests, and the static cache they share. -/
structure TwoPlaylists where
  original : Playlist
  copy : Playlist
  cache : Cache

/-- A call on the object `copy`. -/
def TwoPlaylists.callOnCopy (w : TwoPlaylists) (c : Call) : TwoPlaylists :=
  ⟨w.original, (c.run w.copy w.cache).1, (c.run w.copy w.cache).2⟩

/-- A call on the object `original`. -/
def TwoPlaylists.callOnOriginal (w : TwoPlaylists) (c : Call) : TwoPlaylists :=
  ⟨(c.run w.original w.cache).1, w.copy, (c.run w.original w.cache).2⟩

theorem foldl_callOnCopy_original (calls : List Call) (w : TwoPlaylists) :
    (calls.foldl TwoPlaylists.callOnCopy w).original = w.original := by
  induction calls generalizing w with
  | nil => rfl
  | cons c rest ih => simp only [List.foldl_cons]; rw [ih]; rfl

theorem foldl_callOnOriginal_copy (calls : List Call) (w : TwoPlaylists) :
    (calls.foldl TwoPlaylists.callOnOriginal w).copy = w.copy := by
  induction calls generalizing w with
  | nil => rfl
  | cons c rest ih => simp only [List.foldl_cons]; rw [ih]; rfl

/-- C8: the copy of a playlist (copy constructor or `clone()`) has the same
count and, position by position, songs of the same class, path and metadata as
the original, which are equal to them under `==`; and no sequence of `add`,
`remove`, `clear`, `evaluate` calls on the copy changes the original, nor the
other way round. -/
theorem copy_is_independent (pl : Playlist) (cache : Cache) (calls : List Call) :
    pl.clone = pl.copy ∧
    pl.copy.getCount = pl.getCount ∧
    pl.copy.songs = pl.songs ∧
    List.Forall₂ (fun c o => c.opEq o = true ∧ o.opEq c = true) pl.copy.songs pl.songs ∧
    (calls.foldl TwoPlaylists.callOnCopy ⟨pl, pl.copy, cache⟩).original = pl ∧
    (calls.foldl TwoPlaylists.callOnCopy ⟨pl, pl.copy, cache⟩).original.getCount =
      pl.getCount ∧
    (calls.foldl TwoPlaylists.callOnOriginal ⟨pl, pl.copy, cache⟩).copy = pl.copy := by
  have hs : pl.copy.songs = pl.songs := by
    unfold Playlist.copy
    rw [copyAssign_songs]
    rfl
  refine ⟨rfl, ?_, hs, ?_, ?_, ?_, ?_⟩
  · unfold Playlist.getCount; rw [hs]
  · rw [hs]
    exact List.forall₂_same.2 (fun e _ => ⟨opEq_self e, opEq_self e⟩)
  · exact foldl_callOnCopy_original calls _
  · rw [foldl_callOnCopy_original calls _]
  · exact foldl_callOnOriginal_copy calls _

/-- C9: the copy assignment `dst = src` on a playlist that already holds a
song appends the songs of `src` after it instead of duplicating `src`: with
one song in each, `dst` ends with two songs where `src` has one. -/
theorem copyAssign_appends_to_destination :
    (Playlist.mk [Song.ProxySong ['a']]).copyAssign (Playlist.mk [Song.ProxySong ['b']]) false =
      Playlist.mk [Song.ProxySong ['a'], Song.ProxySong ['b']] ∧
    ((Playlist.mk [Song.ProxySong ['a']]).copyAssign
      (Playlist.mk [Song.ProxySong ['b']]) false).getCount = 2 ∧
    (Playlist.mk [Song.ProxySong ['b']]).getCount = 1 := by
  decide

/-! ## Playlist::load -/

/-- The delimiter `": "` of the text format. -/
def delim : Str := [':', ' ']

/-- The lines of a text: each runs up to the next line break, the last one to
the end of the text when no line break ends it; nothing follows a final line
break. -/
def textLines : Str → List Str
  | [] => []
  | c :: cs =>
    if c = '\n' then [] :: textLines cs
    else
      match textLines cs with
      | [] => [[c]]
      | l :: ls => (c :: l) :: ls

/-- The line reads `tag: path` or `tag: path: trailing`: `tag` is the text
before the first delimiter of the line, some text follows that delimiter, and
`path` is that text up to the next delimiter, or all of it when there is no
further delimiter. -/
def Recognized (line tag path : Str) : Prop :=
  ∃ rest, line = tag ++ delim ++ rest ∧ ¬ delim <:+: tag ∧ rest ≠ [] ∧
    ((¬ delim <:+: rest ∧ path = rest) ∨
      ∃ trailing, rest = path ++ delim ++ trailing ∧ ¬ delim <:+: path)

/-- The text made of the given lines, each followed by a line break. -/
def unlines : List Str → Str
  | [] => []
  | l :: ls => l ++ '\n' :: unlines ls

theorem textLines_cons_ne (c : Char) (cs : Str) : textLines (c :: cs) ≠ [] := by
  simp only [textLines]
  split_ifs
  · simp
  · split <;> simp

theorem textLines_eq (is : Str) (h : is ≠ []) :
    textLines is = is.takeWhile (fun c => decide (c ≠ '\n')) ::
      textLines ((is.dropWhile (fun c => decide (c ≠ '\n'))).drop 1) := by
  induction is with
  | nil => exact absurd rfl h
  | cons c cs ih =>
    by_cases hc : c = '\n'
    · simp [textLines, hc, List.takeWhile, List.dropWhile]
    · have hd : decide (c ≠ '\n') = true := by simpa using hc
      simp only [textLines, hc, if_false, List.takeWhile, List.dropWhile, hd]
      cases cs with
      | nil => simp [textLines]
      | cons d ds => rw [ih (by simp)]

theorem textLines_no_break (text : Str) : ∀ l ∈ textLines text, '\n' ∉ l := by
  induction text with
  | nil => intro l hl; cases hl
  | cons c cs ih =>
    intro l hl
    by_cases hc : c = '\n'
    · simp only [textLines, hc, if_true, List.mem_cons] at hl
      rcases hl with hl | hl
      · rw [hl]; exact List.not_mem_nil _
      · exact ih l hl
    · simp only [textLines, hc, if_false] at hl
      cases ht : textLines cs with
      | nil =>
        rw [ht] at hl
        simp only [List.mem_singleton] at hl
        rw [hl]
        simpa using fun h => hc h.symm
      | cons l0 ls =>
        rw [ht] at hl ih
        simp only [List.mem_cons] at hl
        rcases hl with hl | hl
        · rw [hl]
          intro hm
          rcases List.mem_cons.1 hm with hm | hm
          · exact hc hm.symm
          · exact ih l0 (List.mem_cons_self _ _) hm
        · exact ih l (List.mem_cons_of_mem _ hl)

theorem unlines_textLines (text : Str) :
    unlines (textLines text) = text ∨ unlines (textLines text) = text ++ ['\n'] := by
  induction text with
  | nil => left; rfl
  | cons c cs ih =>
    by_cases hc : c = '\n'
    · simp only [textLines, hc, if_true, unlines, List.nil_append, List.cons_append,
        List.cons.injEq, true_and]
      exact ih
    · simp only [textLines, hc, if_false]
      cases ht : textLines cs with
      | nil =>
        cases cs with
        | nil => right; rfl
        | cons d ds => exact absurd ht (textLines_cons_ne d ds)
      | cons l0 ls =>
        rw [ht] at ih
        simp only [unlines, List.cons_append, List.cons.injEq, true_and] at ih ⊢
        exact ih

theorem getline_length (is : Str) (h : is ≠ []) :
    ((is.dropWhile (fun c => decide (c ≠ '\n'))).drop 1).length < is.length := by
  have h1 : (is.dropWhile (fun c => decide (c ≠ '\n'))).length ≤ is.length :=
    (List.dropWhile_sublist _).length_le
  have h2 : 0 < is.length := List.length_pos.2 h
  rw [List.length_drop]
  omega

theorem loadLoop_eq (fuel : Nat) (is : Str) (st : Playlist × Cache) (h : is.length < fuel) :
    Playlist.loadLoop fuel is st =
      (textLines is).foldl (fun st line => Playlist.loadLine line st) st := by
  induction fuel generalizing is st with
  | zero => omega
  | succ n ih =>
    by_cases he : is = []
    · subst he; rfl
    · have hl := getline_length is he
      simp only [Playlist.loadLoop, Playlist.getline, he, if_false]
      rw [ih _ _ (by omega), textLines_eq is he]
      rfl

theorem delim_not_infix_of_nil : ¬ delim <:+: ([] : Str) := by
  simp [delim]

theorem delim_infix_cons (c : Char) (cs : Str) :
    delim <:+: (c :: cs) ↔ delim <+: (c :: cs) ∨ delim <:+: cs :=
  List.infix_cons_iff

theorem findFrom_none (s : Str) (i : Nat) (h : ¬ delim <:+: s) :
    findFrom delim s i = none := by
  induction s generalizing i with
  | nil => simp [findFrom, delim]
  | cons c cs ih =>
    rw [delim_infix_cons, not_or] at h
    simp only [findFrom, h.1, if_false]
    exact ih _ h.2

theorem delim_not_straddle (c : Char) (pre rest : Str) (h : ¬ delim <:+: (c :: pre)) :
    ¬ delim <+: (c :: (pre ++ delim ++ rest)) := by
  intro hp
  apply h
  cases pre with
  | nil =>
    simp [delim, List.cons_prefix_cons] at hp
  | cons d ds =>
    apply List.IsPrefix.isInfix
    simp only [delim, List.cons_append, List.cons_prefix_cons, List.nil_prefix,
      and_true] at hp ⊢
    exact hp

theorem findFrom_split (pre rest : Str) (i : Nat) (h : ¬ delim <:+: pre) :
    findFrom delim (pre ++ delim ++ rest) i = some (i + pre.length) := by
  induction pre generalizing i with
  | nil => simp [findFrom, delim]
  | cons c cs ih =>
    have hns := delim_not_straddle c cs rest h
    rw [delim_infix_cons, not_or] at h
    simp only [List.cons_append, List.append_assoc] at hns ⊢
    simp only [findFrom, hns, if_false]
    have := ih (i + 1) h.2
    simp only [List.append_assoc] at this
    rw [this, List.length_cons]
    congr 1
    omega

theorem split_first (s : Str) :
    ¬ delim <:+: s ∨ ∃ pre rest, s = pre ++ delim ++ rest ∧ ¬ delim <:+: pre := by
  induction s with
  | nil => left; exact delim_not_infix_of_nil
  | cons c cs ih =>
    by_cases hp : delim <+: (c :: cs)
    · right
      obtain ⟨t, ht⟩ := hp
      exact ⟨[], t, by simpa using ht.symm, delim_not_infix_of_nil⟩
    · rcases ih with h | ⟨pre, rest, hs, hpre⟩
      · left
        rw [delim_infix_cons, not_or]
        exact ⟨hp, h⟩
      · right
        refine ⟨c :: pre, rest, by rw [hs]; simp, ?_⟩
        rw [delim_infix_cons, not_or]
        refine ⟨?_, hpre⟩
        intro hq
        apply hp
        rw [hs]
        exact hq.trans (by simp)

/-- The `path` that the loop body of `load` cuts out of a line whose first
delimiter is at `pos`. -/
def linePath (line : Str) (pos : Nat) : Str :=
  substr line (pos + 2)
    ((match find line delim (pos + 2) with
      | none => line.length
      | some e => e) - (pos + 2))

theorem loadLine_unfold (line : Str) (st : Playlist × Cache) :
    Playlist.loadLine line st =
      match find line delim 0 with
      | none => st
      | some pos =>
        if line.length ≤ pos + 2 then st
        else if substr line 0 pos = "ProxySong".toList then
          (st.1.add (Song.ProxySong (linePath line pos)), st.2)
        else if substr line 0 pos = "ConcreteSong".toList then
          (st.1.add (Song.ConcreteSong (linePath line pos)
              (Metadata.getFileMetadata st.2 (linePath line pos)).1),
            (Metadata.getFileMetadata st.2 (linePath line pos)).2)
        else st := rfl

theorem find_zero (s : Str) : find s delim 0 = findFrom delim s 0 := by
  simp [find]

theorem find_after (pre rest : Str) :
    find (pre ++ delim ++ rest) delim (pre.length + 2) =
      findFrom delim rest (pre.length + 2) := by
  have hl : pre.length + 2 ≤ (pre ++ delim ++ rest).length := by
    simp [delim]
  have hd : (pre ++ delim ++ rest).drop (pre.length + 2) = rest := by
    have : pre.length + 2 = (pre ++ delim).length := by simp [delim]
    rw [this, List.drop_left]
  simp only [find, hl, if_true, hd]

theorem linePath_split (pre rest path : Str)
    (hpath : (¬ delim <:+: rest ∧ path = rest) ∨
      ∃ trailing, rest = path ++ delim ++ trailing ∧ ¬ delim <:+: path) :
    linePath (pre ++ delim ++ rest) pre.length = path := by
  have hd : (pre ++ delim ++ rest).drop (pre.length + 2) = rest := by
    have : pre.length + 2 = (pre ++ delim).length := by simp [delim]
    rw [this, List.drop_left]
  unfold linePath substr
  rw [find_after, hd]
  rcases hpath with ⟨hno, hp⟩ | ⟨trailing, hr, hno⟩
  · rw [findFrom_none rest _ hno, hp]
    have : (pre ++ delim ++ rest).length - (pre.length + 2) = rest.length := by
      simp only [delim, List.length_append, List.length_cons, List.length_nil]
      omega
    simp only [this, List.take_length]
  · rw [hr, findFrom_split path trailing _ hno]
    have : pre.length + 2 + path.length - (pre.length + 2) = path.length := by omega
    simp only [this, List.append_assoc, List.take_left]

theorem loadLine_no_delim (line : Str) (st : Playlist × Cache) (h : ¬ delim <:+: line) :
    Playlist.loadLine line st = st := by
  rw [loadLine_unfold, find_zero, findFrom_none line 0 h]

theorem loadLine_nothing_after (pre : Str) (st : Playlist × Cache) (h : ¬ delim <:+: pre) :
    Playlist.loadLine (pre ++ delim) st = st := by
  have hf := findFrom_split pre [] 0 h
  simp only [List.append_nil, Nat.zero_add] at hf
  rw [loadLine_unfold, find_zero, hf]
  simp [delim]

theorem loadLine_split (pre rest path : Str) (st : Playlist × Cache)
    (hpre : ¬ delim <:+: pre) (hrest : rest ≠ [])
    (hpath : (¬ delim <:+: rest ∧ path = rest) ∨
      ∃ trailing, rest = path ++ delim ++ trailing ∧ ¬ delim <:+: path) :
    Playlist.loadLine (pre ++ delim ++ rest) st =
      if pre = "ProxySong".toList then (st.1.add (Song.ProxySong path), st.2)
      else if pre = "ConcreteSong".toList then
        (st.1.add (Song.ConcreteSong path (Metadata.getFileMetadata st.2 path).1),
          (Metadata.getFileMetadata st.2 path).2)
      else st := by
  have hf := findFrom_split pre rest 0 hpre
  rw [Nat.zero_add] at hf
  have hlen : ¬ (pre ++ delim ++ rest).length ≤ pre.length + 2 := by
    have : 0 < rest.length := List.length_pos.2 hrest
    simp only [delim, List.length_append, List.length_cons, List.length_nil]
    omega
  have htype : substr (pre ++ delim ++ rest) 0 pre.length = pre := by
    simp [substr, List.append_assoc, List.take_left]
  rw [loadLine_unfold, find_zero, hf]
  simp only [hlen, if_false, htype, linePath_split pre rest path hpath]

/-- C10: `load` handles the lines of the text in order, one after the other;
a line `ProxySong: path...` appends one proxy song, a line
`ConcreteSong: path...` appends one concrete song with the metadata that
`getFileMetadata(path)` returns, where `path` runs from the first delimiter to
the next one or to the end of the line and at least one character follows the
first delimiter; any other line (no delimiter, nothing after it, another tag)
appends nothing. -/
theorem load_appends_recognized_lines (pl : Playlist) (cache : Cache) (text : Str) :
    pl.load cache text =
      (textLines text).foldl (fun st line => Playlist.loadLine line st) (pl, cache) ∧
    (∀ l ∈ textLines text, '\n' ∉ l) ∧
    (unlines (textLines text) = text ∨ unlines (textLines text) = text ++ ['\n']) ∧
    ∀ (line : Str) (st : Playlist × Cache),
      (∀ path, Recognized line "ProxySong".toList path →
        Playlist.loadLine line st =
          (Playlist.mk (st.1.songs ++ [Song.ProxySong path]), st.2)) ∧
      (∀ path, Recognized line "ConcreteSong".toList path →
        Playlist.loadLine line st =
          (Playlist.mk (st.1.songs ++
              [Song.ConcreteSong path (Metadata.getFileMetadata st.2 path).1]),
            (Metadata.getFileMetadata st.2 path).2)) ∧
      ((∀ path, ¬ Recognized line "ProxySong".toList path ∧
          ¬ Recognized line "ConcreteSong".toList path) →
        Playlist.loadLine line st = st) ∧
      (¬ delim <:+: line → Playlist.loadLine line st = st) ∧
      (∀ tag, ¬ delim <:+: tag → line = tag ++ delim → Playlist.loadLine line st = st) ∧
      (∀ tag rest, ¬ delim <:+: tag → line = tag ++ delim ++ rest →
        tag ≠ "ProxySong".toList → tag ≠ "ConcreteSong".toList →
        Playlist.loadLine line st = st) := by
  refine ⟨loadLoop_eq _ _ _ (Nat.lt_succ_self _), textLines_no_break text,
    unlines_textLines text, ?_⟩
  intro line st
  refine ⟨?_, ?_, ?_, ?_, ?_, ?_⟩
  · rintro path ⟨rest, hl, hpre, hrest, hpath⟩
    rw [hl, loadLine_split _ rest path st hpre hrest hpath, if_pos rfl]
    rfl
  · rintro path ⟨rest, hl, hpre, hrest, hpath⟩
    rw [hl, loadLine_split _ rest path st hpre hrest hpath,
      if_neg (by decide), if_pos rfl]
    rfl
  · intro hno
    rcases split_first line with h | ⟨pre, rest, hl, hpre⟩
    · exact loadLine_no_delim line st h
    · by_cases hrest : rest = []
      · rw [hl, hrest, List.append_nil]
        exact loadLine_nothing_after pre st hpre
      · have hex : ∃ path, (¬ delim <:+: rest ∧ path = rest) ∨
            ∃ trailing, rest = path ++ delim ++ trailing ∧ ¬ delim <:+: path := by
          rcases split_first rest with h | ⟨path, trailing, hr, hp⟩
          · exact ⟨rest, Or.inl ⟨h, rfl⟩⟩
          · exact ⟨path, Or.inr ⟨trailing, hr, hp⟩⟩
        obtain ⟨path, hpath⟩ := hex
        rw [hl, loadLine_split pre rest path st hpre hrest hpath]
        by_cases h1 : pre = "ProxySong".toList
        · exact absurd ⟨rest, by rw [← h1]; exact hl, by rw [← h1]; exact hpre, hrest, hpath⟩
            (hno path).1
        · by_cases h2 : pre = "ConcreteSong".toList
          · exact absurd ⟨rest, by rw [← h2]; exact hl, by rw [← h2]; exact hpre, hrest, hpath⟩
              (hno path).2
          · rw [if_neg h1, if_neg h2]
  · exact loadLine_no_delim line st
  · intro tag htag hl
    rw [hl]
    exact loadLine_nothing_after tag st htag
  · intro tag rest htag hl h1 h2
    by_cases hrest : rest = []
    · rw [hl, hrest, List.append_nil]
      exact loadLine_nothing_after tag st htag
    · have hex : ∃ path, (¬ delim <:+: rest ∧ path = rest) ∨
          ∃ trailing, rest = path ++ delim ++ trailing ∧ ¬ delim <:+: path := by
        rcases split_first rest with h | ⟨path, trailing, hr, hp⟩
        · exact ⟨rest, Or.inl ⟨h, rfl⟩⟩
        · exact ⟨path, Or.inr ⟨trailing, hr, hp⟩⟩
      obtain ⟨path, hpath⟩ := hex
      rw [hl, loadLine_split tag rest path st htag hrest hpath, if_neg h1, if_neg h2]

theorem load_appends_recognized_lines_witness :
    Playlist.loadLine "ProxySong: /a: x".toList (Playlist.new, StdMap.empty) =
        (Playlist.mk [Song.ProxySong "/a".toList], StdMap.empty) ∧
    Playlist.loadLine "ConcreteSong: f".toList (Playlist.new, StdMap.empty) =
        (Playlist.mk [Song.ConcreteSong "f".toList (Metadata.readFileMetadata "f".toList)],
          (Metadata.getFileMetadata StdMap.empty "f".toList).2) ∧
    Playlist.loadLine "Invalid line: x".toList (Playlist.new, StdMap.empty) =
        (Playlist.new, StdMap.empty) :=
  ⟨((load_appends_recognized_lines Playlist.new StdMap.empty []).2.2.2
      "ProxySong: /a: x".toList (Playlist.new, StdMap.empty)).1 "/a".toList
      ⟨"/a: x".toList, by decide, by decide, by decide,
        Or.inr ⟨"x".toList, by decide, by decide⟩⟩,
   ((load_appends_recognized_lines Playlist.new StdMap.empty []).2.2.2
      "ConcreteSong: f".toList (Playlist.new, StdMap.empty)).2.1 "f".toList
      ⟨"f".toList, by decide, by decide, by decide, Or.inl ⟨by decide, rfl⟩⟩,
   ((load_appends_recognized_lines Playlist.new StdMap.empty []).2.2.2
      "Invalid line: x".toList (Playlist.new, StdMap.empty)).2.2.2.2.2
      "Invalid line".toList "x".toList (by decide) (by decide) (by decide) (by decide)⟩

/-! ## Membership, additions and the algebra of song equality -/

/-- C16: `has(s)` is true exactly when some entry `e` of the playlist
satisfies `e == s`; it is false on an empty and on a cleared playlist. The
loop of `has` only reads `songs` and never touches the cache, so the call
has no playlist or cache to return. -/
theorem has_iff_some_entry_equal (pl : Playlist) (s : Song) :
    (pl.has s = true ↔ ∃ e ∈ pl.songs, e.opEq s = true) ∧
    Playlist.new.has s = false ∧
    pl.clear.has s = false := by
  refine ⟨?_, rfl, rfl⟩
  unfold Playlist.has
  rw [hasLoop_eq_any, List.any_eq_true]

theorem resolved_opEq (e s : Song) (c : Cache) (h : e.opEq s = true) :
    (Song.ConcreteSong e.getPath (e.evaluate c).1).opEq s = true := by
  cases e with
  | ConcreteSong p m => exact h
  | ProxySong p =>
    cases s with
    | ProxySong q =>
      simpa [Song.opEq, Song.baseEq, Song.getPath] using h
    | ConcreteSong q n =>
      have hpq : p = q := by simpa [Song.opEq, Song.baseEq, Song.getPath] using h
      simp [Song.opEq, Song.getPath, hpq]

/-- C17: when `has(s)` is true before `evaluate()`, it is true after it: the
concrete song that replaces an entry equal to `s` is equal to `s` too. -/
theorem has_survives_evaluate (pl : Playlist) (s : Song) (cache : Cache)
    (h : pl.has s = true) : (pl.evaluate cache).1.has s = true := by
  unfold Playlist.has at h ⊢
  rw [hasLoop_eq_any, List.any_eq_true] at h
  obtain ⟨e, he, hes⟩ := h
  rw [hasLoop_eq_any, List.any_eq_true]
  refine ⟨Song.ConcreteSong e.getPath (e.evaluate cache).1, ?_, resolved_opEq e s cache hes⟩
  show _ ∈ (Playlist.evaluateLoop pl.songs [] cache).1
  rw [evaluateLoop_eq_map pl.songs cache cache (cacheExtends_refl cache)]
  exact List.mem_map.2 ⟨e, he, rfl⟩

theorem has_survives_evaluate_witness :
    ((Playlist.mk [Song.ProxySong ['f']]).evaluate StdMap.empty).1.has
      (Song.ProxySong ['f']) = true :=
  has_survives_evaluate (Playlist.mk [Song.ProxySong ['f']]) (Song.ProxySong ['f'])
    StdMap.empty (by decide)

/-- C18: `add(s)` appends one entry, a clone of `s` (same class, path and
metadata), after the entries the playlist had, which stay as they were: the
count grows by one, `has(s)` is true afterwards and the call leaves the cache
as it was. -/
theorem add_appends_clone (pl : Playlist) (s : Song) (cache : Cache) :
    (pl.add s).songs = pl.songs ++ [s.clone] ∧
    s.clone = s ∧
    (pl.add s).getCount = pl.getCount + 1 ∧
    (pl.add s).songs.take pl.getCount = pl.songs ∧
    (pl.add s).songs[pl.getCount]? = some s ∧
    (pl.add s).has s = true ∧
    (Call.run (Call.add s) pl cache) = (pl.add s, cache) := by
  refine ⟨rfl, clone_eq s, ?_, ?_, ?_, ?_, rfl⟩
  · simp [Playlist.add, Playlist.getCount]
  · simp [Playlist.add, Playlist.getCount]
  · simp [Playlist.add, Playlist.getCount, clone_eq]
  · unfold Playlist.has
    rw [hasLoop_eq_any, List.any_eq_true]
    exact ⟨s, by simp [Playlist.add, clone_eq], opEq_self s⟩

/-- C19: song equality is reflexive, and it is symmetric between two proxy
songs and between two concrete songs. -/
theorem opEq_reflexive_and_symmetric_within_class :
    (∀ a : Song, a.opEq a = true) ∧
    (∀ p q : Str,
      ((Song.ProxySong p).opEq (Song.ProxySong q) = true ↔
        (Song.ProxySong q).opEq (Song.ProxySong p) = true)) ∧
    (∀ (p q : Str) (m n : MetaContainer),
      ((Song.ConcreteSong p m).opEq (Song.ConcreteSong q n) = true ↔
        (Song.ConcreteSong q n).opEq (Song.ConcreteSong p m) = true)) := by
  refine ⟨opEq_self, ?_, ?_⟩
  · intro p q
    simp only [Song.opEq, decide_eq_true_eq]
    exact eq_comm
  · intro p q m n
    simp only [Song.opEq, Bool.or_eq_true, decide_eq_true_eq, metadataEquals_iff]
    exact ⟨fun h => h.imp Eq.symm Eq.symm, fun h => h.imp Eq.symm Eq.symm⟩

/-! ## Paths and trailing text of loaded lines -/

/-- The first delimiter of the line is directly followed by another
delimiter, as in `ProxySong: : x`. -/
def DelimiterTwice (line : Str) : Prop :=
  ∃ tag x, line = tag ++ delim ++ (delim ++ x) ∧ ¬ delim <:+: tag

theorem path_of_rest (rest : Str) :
    ∃ path, (¬ delim <:+: rest ∧ path = rest) ∨
      ∃ trailing, rest = path ++ delim ++ trailing ∧ ¬ delim <:+: path := by
  rcases split_first rest with h | ⟨path, trailing, hr, hp⟩
  · exact ⟨rest, Or.inl ⟨h, rfl⟩⟩
  · exact ⟨path, Or.inr ⟨trailing, hr, hp⟩⟩

theorem add_songs (pl : Playlist) (s : Song) : (pl.add s).songs = pl.songs ++ [s] := by
  simp [Playlist.add, clone_eq]

theorem loadLine_path_ne_nil (line : Str) (st : Playlist × Cache) (h : ¬ DelimiterTwice line) :
    (Playlist.loadLine line st).1.songs = st.1.songs ∨
      ∃ song, song.getPath ≠ [] ∧
        (Playlist.loadLine line st).1.songs = st.1.songs ++ [song] := by
  rcases split_first line with hno | ⟨pre, rest, hl, hpre⟩
  · left; rw [loadLine_no_delim line st hno]
  · by_cases hrest : rest = []
    · left
      rw [hl, hrest, List.append_nil, loadLine_nothing_after pre st hpre]
    · obtain ⟨path, hpath⟩ := path_of_rest rest
      have hne : path ≠ [] := by
        rcases hpath with ⟨_, hp⟩ | ⟨trailing, hr, _⟩
        · rw [hp]; exact hrest
        · intro hp
          apply h
          refine ⟨pre, trailing, ?_, hpre⟩
          rw [hl, hr, hp, List.nil_append]
      rw [hl, loadLine_split pre rest path st hpre hrest hpath]
      by_cases h1 : pre = "ProxySong".toList
      · right
        rw [if_pos h1]
        exact ⟨Song.ProxySong path, hne, add_songs _ _⟩
      · rw [if_neg h1]
        by_cases h2 : pre = "ConcreteSong".toList
        · right
          rw [if_pos h2]
          exact ⟨Song.ConcreteSong path _, hne, add_songs _ _⟩
        · left
          rw [if_neg h2]

theorem foldl_loadLine_appends (P : Song → Prop) (lines : List Str) (st : Playlist × Cache)
    (h : ∀ line ∈ lines, ∀ st' : Playlist × Cache,
      (Playlist.loadLine line st').1.songs = st'.1.songs ∨
        ∃ song, P song ∧ (Playlist.loadLine line st').1.songs = st'.1.songs ++ [song]) :
    ∃ new, (lines.foldl (fun st line => Playlist.loadLine line st) st).1.songs =
        st.1.songs ++ new ∧ ∀ s ∈ new, P s := by
  induction lines generalizing st with
  | nil => exact ⟨[], by simp, fun s hs => (by cases hs)⟩
  | cons line rest ih =>
    obtain ⟨new, hnew, hP⟩ :=
      ih (Playlist.loadLine line st) (fun l hl => h l (List.mem_cons_of_mem _ hl))
    simp only [List.foldl_cons]
    rcases h line (List.mem_cons_self _ _) st with h1 | ⟨song, hs, h1⟩
    · exact ⟨new, by rw [hnew, h1], hP⟩
    · refine ⟨song :: new, by rw [hnew, h1]; simp, ?_⟩
      intro s hs'
      rcases List.mem_cons.1 hs' with e | e
      · rw [e]; exact hs
      · exact hP s e

/-- C11 (as the code has it): `load` keeps the songs of the playlist and
appends to them; a line with nothing after its first delimiter appends
nothing, and every song appended from a text none of whose lines has its
first delimiter directly followed by another one has a non-empty path. -/
theorem load_paths_nonempty_unless_delimiter_twice (pl : Playlist) (cache : Cache)
    (text : Str) (h : ∀ line ∈ textLines text, ¬ DelimiterTwice line) :
    (∃ new, (pl.load cache text).1.songs = pl.songs ++ new ∧ ∀ s ∈ new, s.getPath ≠ []) ∧
    (∀ (tag : Str) (st : Playlist × Cache), ¬ delim <:+: tag →
      Playlist.loadLine (tag ++ delim) st = st) := by
  refine ⟨?_, fun tag st ht => loadLine_nothing_after tag st ht⟩
  unfold Playlist.load
  rw [loadLoop_eq _ _ _ (Nat.lt_succ_self _)]
  exact foldl_loadLine_appends (fun s => s.getPath ≠ []) (textLines text) (pl, cache)
    (fun line hl st => loadLine_path_ne_nil line st (h line hl))

/-- C11 (counterexample): the line `ProxySong: : x` is not skipped: `load`
appends a proxy song whose path is empty. -/
theorem load_appends_empty_path :
    (Playlist.new.load StdMap.empty "ProxySong: : x".toList).1.songs = [Song.ProxySong []] ∧
    (Song.ProxySong []).getPath = [] := by
  decide

theorem delimiterTwice_contained (line : Str) (h : DelimiterTwice line) :
    (delim ++ delim) <:+: line := by
  obtain ⟨tag, x, hl, _⟩ := h
  exact ⟨tag, x, by rw [hl]; simp⟩

theorem load_paths_nonempty_unless_delimiter_twice_witness :
    ∃ new, (Playlist.new.load StdMap.empty
        "ProxySong: /a: x\nProxySong: \nConcreteSong: f".toList).1.songs =
      Playlist.new.songs ++ new ∧ ∀ s ∈ new, s.getPath ≠ [] :=
  (load_paths_nonempty_unless_delimiter_twice Playlist.new StdMap.empty
    "ProxySong: /a: x\nProxySong: \nConcreteSong: f".toList
    (fun line hl hd =>
      (by decide : ∀ l ∈ textLines "ProxySong: /a: x\nProxySong: \nConcreteSong: f".toList,
        ¬ (delim ++ delim) <:+: l) line hl (delimiterTwice_contained line hd))).1

theorem textLines_single (line : Str) (hne : line ≠ []) (hnl : '\n' ∉ line) :
    textLines line = [line] := by
  have hall : ∀ c ∈ line, decide (c ≠ '\n') = true := by
    intro c hc
    simp only [ne_eq, decide_eq_true_eq]
    intro e
    exact hnl (e ▸ hc)
  rw [textLines_eq line hne, List.takeWhile_eq_self_iff.2 hall,
    List.dropWhile_eq_nil_iff.2 hall]
  rfl

theorem load_single_line (pl : Playlist) (cache : Cache) (line : Str) (hne : line ≠ [])
    (hnl : '\n' ∉ line) : pl.load cache line = Playlist.loadLine line (pl, cache) := by
  unfold Playlist.load
  rw [loadLoop_eq _ _ _ (Nat.lt_succ_self _), textLines_single line hne hnl]
  rfl

theorem load_concrete_line (pl : Playlist) (cache : Cache) (p x : Str)
    (hd : ¬ delim <:+: p) (hn : '\n' ∉ p) (hx : '\n' ∉ x) :
    pl.load cache ("ConcreteSong: ".toList ++ p ++ ": ".toList ++ x) =
      (Playlist.mk (pl.songs ++
          [Song.ConcreteSong p (Metadata.getFileMetadata cache p).1]),
        (Metadata.getFileMetadata cache p).2) := by
  have hline : "ConcreteSong: ".toList ++ p ++ ": ".toList ++ x =
      "ConcreteSong".toList ++ delim ++ (p ++ delim ++ x) := by
    have h1 : "ConcreteSong: ".toList = "ConcreteSong".toList ++ delim := by decide
    have h2 : ": ".toList = delim := rfl
    rw [h1, h2]
    simp only [List.append_assoc]
  have hne : "ConcreteSong: ".toList ++ p ++ ": ".toList ++ x ≠ [] := by
    rw [hline]; simp
  have hnl : '\n' ∉ "ConcreteSong: ".toList ++ p ++ ": ".toList ++ x := by
    simp only [List.mem_append, not_or]
    exact ⟨⟨⟨by decide, hn⟩, by decide⟩, hx⟩
  rw [load_single_line pl cache _ hne hnl, hline,
    loadLine_split "ConcreteSong".toList (p ++ delim ++ x) p (pl, cache) (by decide)
      (by simp [delim]) (Or.inr ⟨x, rfl, hd⟩),
    if_neg (by decide), if_pos rfl]
  simp only [Playlist.add, clone_eq]

/-- C12: for a non-empty path `p` without delimiter and line break and
trailing texts `x`, `y` without line break, loading the line
`ConcreteSong: p: x` and loading the line `ConcreteSong: p: y` from the same
playlist and cache give the same playlist and cache: the old songs followed by
one concrete song with path `p` and the metadata `getFileMetadata(p)` returns,
and the cache that call leaves. -/
theorem load_ignores_trailing_text (pl : Playlist) (cache : Cache) (p x y : Str)
    (_hp : p ≠ []) (hd : ¬ delim <:+: p) (hn : '\n' ∉ p) (hx : '\n' ∉ x) (hy : '\n' ∉ y) :
    pl.load cache ("ConcreteSong: ".toList ++ p ++ ": ".toList ++ x) =
      pl.load cache ("ConcreteSong: ".toList ++ p ++ ": ".toList ++ y) ∧
    pl.load cache ("ConcreteSong: ".toList ++ p ++ ": ".toList ++ x) =
      (Playlist.mk (pl.songs ++
          [Song.ConcreteSong p (Metadata.getFileMetadata cache p).1]),
        (Metadata.getFileMetadata cache p).2) := by
  rw [load_concrete_line pl cache p x hd hn hx, load_concrete_line pl cache p y hd hn hy]
  exact ⟨rfl, rfl⟩

theorem load_ignores_trailing_text_witness :
    Playlist.new.load StdMap.empty "ConcreteSong: /b/f5: Some One The Album f5".toList =
      Playlist.new.load StdMap.empty "ConcreteSong: /b/f5: anything else".toList :=
  (load_ignores_trailing_text Playlist.new StdMap.empty "/b/f5".toList
    "Some One The Album f5".toList "anything else".toList
    (by decide) (by decide) (by decide) (by decide) (by decide)).1

/-! ## Song::print -/

/-- The NUL character, which ends the text behind a `const char*`. -/
def nul : Char := Char.ofNat 0

theorem c_str_of_no_nul (s : Str) (h : nul ∉ s) : c_str s = s := by
  unfold c_str
  rw [List.takeWhile_eq_self_iff]
  intro c hc
  simp only [ne_eq, decide_eq_true_eq]
  intro e
  exact h (by rw [nul, ← e]; exact hc)

theorem c_str_cut (a b : Str) (h : nul ∉ a) : c_str (a ++ nul :: b) = a := by
  unfold c_str
  rw [List.takeWhile_append_of_pos]
  · simp [nul]
  · intro c hc
    simp only [ne_eq, decide_eq_true_eq]
    intro e
    exact h (by rw [nul, ← e]; exact hc)

theorem printTitles_eq (m : MetaContainer) (keys : List Str) (os : Str) :
    Song.printTitles m keys os =
      os ++ (keys.filterMap m.find).flatMap (fun v => ' ' :: c_str v) := by
  induction keys generalizing os with
  | nil => simp [Song.printTitles]
  | cons k ks ih =>
    cases hk : m.find k with
    | none => simp [Song.printTitles, hk, ih]
    | some v => simp [Song.printTitles, hk, ih]

theorem print_concrete_eq (p : Str) (m : MetaContainer) (os : Str) :
    (Song.ConcreteSong p m).print os =
      os ++ "ConcreteSong: ".toList ++ c_str p ++ ":".toList ++
        (["artist".toList, "album".toList, "title".toList].filterMap m.find).flatMap
          (fun v => ' ' :: c_str v) := by
  simp only [Song.print, printTitles_eq, ConcreteSong.title_strings]

/-- C14 (as the code has it): `print` writes the path and the metadata values
through `c_str()`, so each is written up to its first NUL character. A proxy
song writes `ProxySong: ` and the path; a concrete song writes
`ConcreteSong: `, the path and `:`, then a space and the value for each of the
keys artist, album, title, in that order, that the metadata has; a key that is
absent adds nothing and no other key is looked at. When the path and the
values hold no NUL, they are written in full. -/
theorem print_writes_c_strings (p : Str) (m m' : MetaContainer) (os : Str) :
    (Song.ProxySong p).print os = os ++ "ProxySong: ".toList ++ c_str p ∧
    (Song.ConcreteSong p m).print os =
      os ++ "ConcreteSong: ".toList ++ c_str p ++ ":".toList ++
        (["artist".toList, "album".toList, "title".toList].filterMap m.find).flatMap
          (fun v => ' ' :: c_str v) ∧
    (∀ s : Str, nul ∉ s → c_str s = s) ∧
    (∀ a b : Str, nul ∉ a → c_str (a ++ nul :: b) = a) ∧
    (nul ∉ p → (Song.ProxySong p).print os = os ++ "ProxySong: ".toList ++ p) ∧
    (nul ∉ p →
      (∀ v ∈ ["artist".toList, "album".toList, "title".toList].filterMap m.find, nul ∉ v) →
      (Song.ConcreteSong p m).print os =
        os ++ "ConcreteSong: ".toList ++ p ++ ":".toList ++
          (["artist".toList, "album".toList, "title".toList].filterMap m.find).flatMap
            (fun v => ' ' :: v)) ∧
    ((∀ k ∈ ["artist".toList, "album".toList, "title".toList], m.find k = m'.find k) →
      (Song.ConcreteSong p m).print os = (Song.ConcreteSong p m').print os) := by
  refine ⟨rfl, print_concrete_eq p m os, c_str_of_no_nul, c_str_cut, ?_, ?_, ?_⟩
  · intro hp
    rw [Song.print, c_str_of_no_nul p hp]
  · intro hp hv
    rw [print_concrete_eq, c_str_of_no_nul p hp]
    congr 1
    apply List.flatMap_congr
    intro v hv'
    rw [c_str_of_no_nul v (hv v hv')]
  · intro hk
    rw [print_concrete_eq, print_concrete_eq]
    congr 2
    apply List.filterMap_congr
    intro k hk'
    exact hk k hk'

theorem print_writes_c_strings_witness :
    (Song.ConcreteSong "/x/f".toList (Metadata.readFileMetadata "/x/f".toList)).print [] =
      "ConcreteSong: /x/f: Some One The Album f".toList ∧
    (Song.ProxySong "/x/f".toList).print [] = "ProxySong: /x/f".toList :=
  ⟨(print_writes_c_strings "/x/f".toList (Metadata.readFileMetadata "/x/f".toList)
      StdMap.empty []).2.2.2.2.2.1 (by decide) (by decide),
   (print_writes_c_strings "/x/f".toList StdMap.empty StdMap.empty []).2.2.2.2.1 (by decide)⟩

/-- C14 (counterexample): a proxy song whose path holds a NUL character is
printed without the NUL and what follows it. -/
theorem print_cuts_path_at_nul :
    (Song.ProxySong ['a', Char.ofNat 0, 'b']).print [] = "ProxySong: a".toList ∧
    (Song.ProxySong ['a', Char.ofNat 0, 'b']).print [] ≠
      "ProxySong: ".toList ++ ['a', Char.ofNat 0, 'b'] := by
  decide

/-! ## The reader's metadata and the states of the cache -/

/-- The local `filename` of `Metadata::readFileMetadata`: the path from behind
its last `/` or `\` on, all of it when it has neither. -/
def Metadata.filename (path : Str) : Str :=
  substrFrom path
    (match find_last_of path ['/', '\\'] with
      | none => 0
      | some i => i + 1)

/-- The states of the static `Metadata::cache`: empty at program start, then
changed only by `getFileMetadata` and `clear`, the only functions that can
reach the private member. -/
inductive Metadata.Reachable : Cache → Prop where
  | init : Metadata.Reachable StdMap.empty
  | getFileMetadata (c : Cache) (p : Str) :
      Metadata.Reachable c → Metadata.Reachable (Metadata.getFileMetadata c p).2
  | clear (c : Cache) : Metadata.Reachable c → Metadata.Reachable (Metadata.clear c)

theorem readFileMetadata_eq (p : Str) :
    Metadata.readFileMetadata p =
      ((((StdMap.empty : MetaContainer).set "copyright".toList "Some One".toList).set
        "artist".toList "Some One".toList).set "album".toList "The Album".toList).set
        "title".toList (Metadata.filename p) := rfl

theorem readFileMetadata_titles (p : Str) :
    ["artist".toList, "album".toList, "title".toList].filterMap
        (Metadata.readFileMetadata p).find =
      ["Some One".toList, "The Album".toList, Metadata.filename p] := by
  have h1 : (Metadata.readFileMetadata p).find "artist".toList = some "Some One".toList := by
    rw [readFileMetadata_eq, StdMap.find_set, if_neg (by decide), StdMap.find_set,
      if_neg (by decide), StdMap.find_set, if_pos rfl]
  have h2 : (Metadata.readFileMetadata p).find "album".toList = some "The Album".toList := by
    rw [readFileMetadata_eq, StdMap.find_set, if_neg (by decide), StdMap.find_set,
      if_pos rfl]
  have h3 : (Metadata.readFileMetadata p).find "title".toList =
      some (Metadata.filename p) := by
    rw [readFileMetadata_eq, StdMap.find_set, if_pos rfl]
  simp only [List.filterMap_cons, h1, h2, h3, List.filterMap_nil]

theorem readFileMetadata_of_filename (p q : Str) (h : Metadata.filename p = Metadata.filename q) :
    Metadata.readFileMetadata p = Metadata.readFileMetadata q := by
  rw [readFileMetadata_eq, readFileMetadata_eq, h]

theorem filename_no_nul (p : Str) (h : nul ∉ p) : nul ∉ Metadata.filename p :=
  fun hm => h (List.mem_of_mem_drop hm)

theorem reachable_find (c : Cache) (h : Metadata.Reachable c) (k : Str) (m : MetaContainer)
    (hk : c.find k = some m) : m = Metadata.readFileMetadata k := by
  induction h generalizing k m with
  | init => cases hk
  | getFileMetadata c p _ ih =>
    rw [getFileMetadata_find] at hk
    by_cases hkp : k = p
    · rw [if_pos hkp] at hk
      subst hkp
      cases hc : c.find k with
      | none =>
        rw [getFileMetadata_miss c k hc] at hk
        exact (Option.some.inj hk).symm
      | some md =>
        rw [getFileMetadata_hit c k md hc] at hk
        rw [← Option.some.inj hk]
        exact ih k md hc
    · rw [if_neg hkp] at hk
      exact ih k m hk
  | clear c _ _ => cases hk

theorem reachable_getFileMetadata (c : Cache) (h : Metadata.Reachable c) (p : Str) :
    (Metadata.getFileMetadata c p).1 = Metadata.readFileMetadata p := by
  cases hc : c.find p with
  | none => rw [getFileMetadata_miss c p hc]
  | some md => rw [getFileMetadata_hit c p md hc]; exact reachable_find c h p md hc

theorem print_reader_line (p : Str) (os : Str) (hp : nul ∉ p) :
    (Song.ConcreteSong p (Metadata.readFileMetadata p)).print os =
      os ++ "ConcreteSong: ".toList ++ p ++ ": Some One The Album ".toList ++
        Metadata.filename p := by
  rw [print_concrete_eq, readFileMetadata_titles, c_str_of_no_nul p hp]
  simp only [List.flatMap_cons, List.flatMap_nil, List.append_nil,
    c_str_of_no_nul _ (filename_no_nul p hp)]
  have h1 : c_str "Some One".toList = "Some One".toList := by decide
  have h2 : c_str "The Album".toList = "The Album".toList := by decide
  rw [h1, h2]
  simp

/-- C15 (as the code has it): for a path `p` without NUL character and a cache
state the program can be in, `evaluate()` turns a proxy song at `p` into the
concrete song with the reader's metadata for `p`, which is printed as
`ConcreteSong: ` then `p` then `: Some One The Album ` then the filename of
`p`. -/
theorem evaluated_proxy_prints_reader_line (pl : Playlist) (cache : Cache) (i : Nat) (p : Str)
    (hc : Metadata.Reachable cache) (hi : pl.songs[i]? = some (Song.ProxySong p))
    (hp : nul ∉ p) :
    (pl.evaluate cache).1.songs[i]? =
      some (Song.ConcreteSong p (Metadata.readFileMetadata p)) ∧
    (Song.ConcreteSong p (Metadata.readFileMetadata p)).print [] =
      "ConcreteSong: ".toList ++ p ++ ": Some One The Album ".toList ++
        Metadata.filename p := by
  refine ⟨?_, ?_⟩
  · show (Playlist.evaluateLoop pl.songs [] cache).1[i]? = _
    rw [evaluateLoop_eq_map pl.songs cache cache (cacheExtends_refl cache),
      List.getElem?_map, hi]
    simp only [Option.map_some', Song.getPath, Song.evaluate,
      reachable_getFileMetadata cache hc p]
  · have := print_reader_line p [] hp
    simpa using this

theorem evaluated_proxy_prints_reader_line_witness :
    ((Playlist.mk [Song.ProxySong "f1".toList, Song.ProxySong "f2".toList,
        Song.ProxySong "f3".toList]).evaluate StdMap.empty).1.songs[0]? =
      some (Song.ConcreteSong "f1".toList (Metadata.readFileMetadata "f1".toList)) ∧
    (Song.ConcreteSong "f1".toList (Metadata.readFileMetadata "f1".toList)).print [] =
      "ConcreteSong: f1: Some One The Album f1".toList :=
  evaluated_proxy_prints_reader_line
    (Playlist.mk [Song.ProxySong "f1".toList, Song.ProxySong "f2".toList,
      Song.ProxySong "f3".toList])
    StdMap.empty 0 "f1".toList Metadata.Reachable.init (by decide) (by decide)

/-- C15 (counterexample): with a NUL character in the path, the printed line
after `evaluate()` stops the path and the filename at the NUL. -/
theorem evaluated_proxy_line_cut_at_nul :
    ((Playlist.mk [Song.ProxySong ['a', Char.ofNat 0, 'b']]).evaluate StdMap.empty).1.print [] =
      "ConcreteSong: a: Some One The Album a\n".toList ∧
    ((Playlist.mk [Song.ProxySong ['a', Char.ofNat 0, 'b']]).evaluate StdMap.empty).1.print [] ≠
      "ConcreteSong: ".toList ++ ['a', Char.ofNat 0, 'b'] ++ ": Some One The Album ".toList ++
        Metadata.filename ['a', Char.ofNat 0, 'b'] ++ ['\n'] := by
  decide

/-- C20 (as the code has it): two concrete songs built from `getFileMetadata`
of their paths, on any states of the cache, are equal under `==` whenever the
two paths have the same filename, also when the paths differ; hence a playlist
loaded from the line `ConcreteSong: q: x` has the song built from `p`, when
`q` holds no delimiter and neither `q` nor `x` holds a line break. -/
theorem same_filename_songs_equal (c1 c2 : Cache) (p q : Str)
    (h1 : Metadata.Reachable c1) (h2 : Metadata.Reachable c2)
    (hf : Metadata.filename p = Metadata.filename q) :
    (Song.ConcreteSong p (Metadata.getFileMetadata c1 p).1).opEq
      (Song.ConcreteSong q (Metadata.getFileMetadata c2 q).1) = true ∧
    (Song.ConcreteSong q (Metadata.getFileMetadata c2 q).1).opEq
      (Song.ConcreteSong p (Metadata.getFileMetadata c1 p).1) = true ∧
    ∀ (pl : Playlist) (x : Str), ¬ delim <:+: q → '\n' ∉ q → '\n' ∉ x →
      (pl.load c2 ("ConcreteSong: ".toList ++ q ++ ": ".toList ++ x)).1.has
        (Song.ConcreteSong p (Metadata.getFileMetadata c1 p).1) = true := by
  have hm : (Metadata.getFileMetadata c1 p).1 = (Metadata.getFileMetadata c2 q).1 := by
    rw [reachable_getFileMetadata c1 h1 p, reachable_getFileMetadata c2 h2 q,
      readFileMetadata_of_filename p q hf]
  have hqp : (Song.ConcreteSong q (Metadata.getFileMetadata c2 q).1).opEq
      (Song.ConcreteSong p (Metadata.getFileMetadata c1 p).1) = true := by
    simp only [Song.opEq, Bool.or_eq_true, decide_eq_true_eq, metadataEquals_iff]
    right; exact hm.symm
  refine ⟨?_, hqp, ?_⟩
  · simp only [Song.opEq, Bool.or_eq_true, decide_eq_true_eq, metadataEquals_iff]
    right; exact hm
  · intro pl x hd hn hx
    rw [load_concrete_line pl c2 q x hd hn hx]
    unfold Playlist.has
    rw [hasLoop_eq_any, List.any_eq_true]
    exact ⟨_, by simp, hqp⟩

theorem same_filename_songs_equal_witness :
    (Song.ConcreteSong "/dummy/path/to/file5.mp3".toList
        (Metadata.getFileMetadata StdMap.empty "/dummy/path/to/file5.mp3".toList).1).opEq
      (Song.ConcreteSong "/same/song/different/path/file5.mp3".toList
        (Metadata.getFileMetadata StdMap.empty
          "/same/song/different/path/file5.mp3".toList).1) = true ∧
    (Playlist.new.load StdMap.empty
        ("ConcreteSong: ".toList ++ "/same/song/different/path/file5.mp3".toList ++
          ": ".toList ++ "Some One The Album file5.mp3".toList)).1.has
      (Song.ConcreteSong "/dummy/path/to/file5.mp3".toList
        (Metadata.getFileMetadata StdMap.empty "/dummy/path/to/file5.mp3".toList).1) = true :=
  ⟨(same_filename_songs_equal StdMap.empty StdMap.empty "/dummy/path/to/file5.mp3".toList
      "/same/song/different/path/file5.mp3".toList Metadata.Reachable.init
      Metadata.Reachable.init (by decide)).1,
   (same_filename_songs_equal StdMap.empty StdMap.empty "/dummy/path/to/file5.mp3".toList
      "/same/song/different/path/file5.mp3".toList Metadata.Reachable.init
      Metadata.Reachable.init (by decide)).2.2 Playlist.new
      "Some One The Album file5.mp3".toList (by decide) (by decide) (by decide)⟩

/-- C20 (counterexample): when the path holds the delimiter, the line
`ConcreteSong: q: x` is read with the path cut at it, and the loaded playlist
does not have the song built from a path `p` of the same filename: so for
`p = q`, and so for two different paths with the filename `f: g`. -/
theorem loaded_line_lacks_song_of_same_filename :
    (Playlist.new.load StdMap.empty
        ("ConcreteSong: ".toList ++ "a: b".toList ++ ": ".toList ++ "x".toList)).1.has
      (Song.ConcreteSong "a: b".toList
        (Metadata.getFileMetadata StdMap.empty "a: b".toList).1) = false ∧
    Metadata.filename "/x/f: g".toList = Metadata.filename "/y/f: g".toList ∧
    (Playlist.new.load StdMap.empty
        ("ConcreteSong: ".toList ++ "/y/f: g".toList ++ ": ".toList ++ "x".toList)).1.has
      (Song.ConcreteSong "/x/f: g".toList
        (Metadata.getFileMetadata StdMap.empty "/x/f: g".toList).1) = false ∧
    (Playlist.new.load StdMap.empty
        ("ConcreteSong: ".toList ++ "/y/f: g".toList ++ ": ".toList ++ "x".toList)).1.songs =
      [Song.ConcreteSong "/y/f".toList (Metadata.readFileMetadata "/y/f".toList)] := by
  decide

/-! ## Printing a playlist and loading the text back -/

/-- The values that `ConcreteSong::print` writes: those of the keys artist,
album, title that the metadata has, in that order. -/
def titleValues (m : MetaContainer) : List Str :=
  ["artist".toList, "album".toList, "title".toList].filterMap m.find

/-- The printed line of the song reads back as the song's class and path: the
path holds no delimiter, no line break and no NUL character; a proxy song has
a non-empty path; a concrete song has a value for at least one of the keys
artist, album, title, and none of these values holds a line break. -/
def Song.Storable : Song → Prop
  | Song.ProxySong p => p ≠ [] ∧ ¬ delim <:+: p ∧ '\n' ∉ p ∧ nul ∉ p
  | Song.ConcreteSong p m =>
    ¬ delim <:+: p ∧ '\n' ∉ p ∧ nul ∉ p ∧ titleValues m ≠ [] ∧ ∀ v ∈ titleValues m, '\n' ∉ v

/-- The song that `load` builds from the printed line of a song: the same
class and path, the metadata of a concrete song coming from
`getFileMetadata`. -/
def Song.reloaded (cache : Cache) : Song → Song
  | Song.ProxySong p => Song.ProxySong p
  | Song.ConcreteSong p _ => Song.ConcreteSong p (Metadata.getFileMetadata cache p).1

theorem print_append (e : Song) (os : Str) : e.print os = os ++ e.print [] := by
  cases e with
  | ProxySong p => simp [Song.print]
  | ConcreteSong p m => rw [print_concrete_eq, print_concrete_eq]; simp

theorem printLoop_eq (songs : List Song) (os : Str) :
    Playlist.printLoop songs os = os ++ unlines (songs.map (fun e => e.print [])) := by
  induction songs generalizing os with
  | nil => simp [Playlist.printLoop, unlines]
  | cons e rest ih =>
    simp only [Playlist.printLoop, List.map_cons, unlines]
    rw [ih, print_append e os]
    simp

theorem textLines_line_break (l rest : Str) (h : '\n' ∉ l) :
    textLines (l ++ '\n' :: rest) = l :: textLines rest := by
  induction l with
  | nil => simp [textLines]
  | cons c l' ih =>
    have hc : c ≠ '\n' := fun e => h (by rw [e]; exact List.mem_cons_self _ _)
    have hl' : '\n' ∉ l' := fun hm => h (List.mem_cons_of_mem _ hm)
    simp only [List.cons_append, textLines, hc, if_false]
    have := ih hl'
    simp only [List.append_eq] at this ⊢
    rw [this]

theorem textLines_unlines (ls : List Str) (h : ∀ l ∈ ls, '\n' ∉ l) :
    textLines (unlines ls) = ls := by
  induction ls with
  | nil => rfl
  | cons l rest ih =>
    simp only [unlines]
    rw [textLines_line_break l _ (h l (List.mem_cons_self _ _)),
      ih (fun l' hl' => h l' (List.mem_cons_of_mem _ hl'))]

theorem c_str_subset (s : Str) (c : Char) (h : c ∈ c_str s) : c ∈ s :=
  (List.takeWhile_sublist _).subset h

theorem titles_text_cases (m : MetaContainer) (h : titleValues m ≠ []) :
    ∃ t, (titleValues m).flatMap (fun v => ' ' :: c_str v) = ' ' :: t := by
  cases hv : titleValues m with
  | nil => exact absurd hv h
  | cons v vs =>
    exact ⟨c_str v ++ vs.flatMap (fun v => ' ' :: c_str v), by simp [List.flatMap_cons]⟩

theorem print_no_line_break (e : Song) (h : e.Storable) : '\n' ∉ e.print [] := by
  cases e with
  | ProxySong p =>
    obtain ⟨_, _, hn, hz⟩ := h
    simp only [Song.print, List.nil_append, c_str_of_no_nul p hz, List.mem_append, not_or]
    exact ⟨by decide, hn⟩
  | ConcreteSong p m =>
    obtain ⟨_, hn, hz, _, hv⟩ := h
    rw [print_concrete_eq, c_str_of_no_nul p hz]
    simp only [List.nil_append, List.mem_append, not_or, List.mem_flatMap, not_exists, not_and]
    refine ⟨⟨⟨by decide, hn⟩, by decide⟩, ?_⟩
    intro v hv' hm
    rcases List.mem_cons.1 hm with e | e
    · exact absurd e (by decide)
    · exact hv v hv' (c_str_subset v _ e)

/-- The cache after `load` has read the printed line of a song. -/
def Song.reloadedCache (cache : Cache) : Song → Cache
  | Song.ProxySong _ => cache
  | Song.ConcreteSong p _ => (Metadata.getFileMetadata cache p).2

theorem loadLine_print (e : Song) (st : Playlist × Cache) (h : e.Storable) :
    Playlist.loadLine (e.print []) st =
      (Playlist.mk (st.1.songs ++ [e.reloaded st.2]), e.reloadedCache st.2) := by
  cases e with
  | ProxySong p =>
    obtain ⟨hne, hd, _, hz⟩ := h
    have hline : (Song.ProxySong p).print [] = "ProxySong".toList ++ delim ++ p := by
      simp only [Song.print, List.nil_append, c_str_of_no_nul p hz]
      rfl
    rw [hline, loadLine_split "ProxySong".toList p p st (by decide) hne (Or.inl ⟨hd, rfl⟩),
      if_pos rfl]
    simp only [Playlist.add, clone_eq, Song.reloaded, Song.reloadedCache]
  | ConcreteSong p m =>
    obtain ⟨hd, _, hz, hv, _⟩ := h
    obtain ⟨t, ht⟩ := titles_text_cases m hv
    have hline : (Song.ConcreteSong p m).print [] =
        "ConcreteSong".toList ++ delim ++ (p ++ delim ++ t) := by
      rw [print_concrete_eq, c_str_of_no_nul p hz]
      unfold titleValues at ht
      rw [ht]
      simp [delim]
    rw [hline, loadLine_split "ConcreteSong".toList (p ++ delim ++ t) p st (by decide)
      (by simp [delim]) (Or.inr ⟨t, rfl, hd⟩), if_neg (by decide), if_pos rfl]
    simp only [Playlist.add, clone_eq, Song.reloaded, Song.reloadedCache]

theorem reloaded_of_extends (e : Song) (c0 c : Cache) (h : CacheExtends c0 c) :
    e.reloaded c = e.reloaded c0 := by
  cases e with
  | ProxySong p => rfl
  | ConcreteSong p m =>
    simp only [Song.reloaded, getFileMetadata_fst_of_extends c0 c p h]

theorem cacheExtends_reloadedCache (e : Song) (c0 c : Cache) (h : CacheExtends c0 c) :
    CacheExtends c0 (e.reloadedCache c) := by
  cases e with
  | ProxySong p => exact h
  | ConcreteSong p m => exact cacheExtends_getFileMetadata c0 c p h

theorem foldl_loadLine_print (songs : List Song) (st : Playlist × Cache) (c0 : Cache)
    (hc : CacheExtends c0 st.2) (h : ∀ e ∈ songs, e.Storable) :
    ((songs.map (fun e => e.print [])).foldl
        (fun st line => Playlist.loadLine line st) st).1.songs =
      st.1.songs ++ songs.map (Song.reloaded c0) := by
  induction songs generalizing st with
  | nil => simp
  | cons e rest ih =>
    simp only [List.map_cons, List.foldl_cons]
    rw [loadLine_print e st (h e (List.mem_cons_self _ _)),
      ih _ (cacheExtends_reloadedCache e c0 st.2 hc)
        (fun e' he' => h e' (List.mem_cons_of_mem _ he'))]
    simp only [reloaded_of_extends e c0 st.2 hc, List.append_assoc, List.singleton_append]

theorem load_print_songs (pl : Playlist) (cache : Cache) (h : ∀ e ∈ pl.songs, e.Storable) :
    (Playlist.new.load cache (pl.print [])).1.songs = pl.songs.map (Song.reloaded cache) := by
  unfold Playlist.load Playlist.print
  rw [loadLoop_eq _ _ _ (Nat.lt_succ_self _), printLoop_eq, List.nil_append,
    textLines_unlines _ (by
      intro l hl
      obtain ⟨e, he, hel⟩ := List.mem_map.1 hl
      rw [← hel]
      exact print_no_line_break e (h e he)),
    foldl_loadLine_print pl.songs (Playlist.new, cache) cache (cacheExtends_refl cache) h]
  rfl

/-- C13 (as the code has it): for a playlist whose songs have a printed line
that reads back (paths without delimiter, line break and NUL character, no
proxy song with an empty path, every concrete song with a value free of line
breaks for at least one of the keys artist, album, title), printing it and
loading the text into an empty playlist gives the same count and, at each
position, a song of the same class and path, the metadata of a concrete song
being what `getFileMetadata` returns for its path. -/
theorem print_load_round_trip (pl : Playlist) (cache : Cache)
    (h : ∀ e ∈ pl.songs, e.Storable) :
    (Playlist.new.load cache (pl.print [])).1.getCount = pl.getCount ∧
    (Playlist.new.load cache (pl.print [])).1.songs = pl.songs.map (Song.reloaded cache) ∧
    List.Forall₂
      (fun l e => l.getPath = e.getPath ∧
        match l, e with
        | Song.ProxySong _, Song.ProxySong _ => True
        | Song.ConcreteSong _ m, Song.ConcreteSong p _ =>
          m = (Metadata.getFileMetadata cache p).1
        | _, _ => False)
      (Playlist.new.load cache (pl.print [])).1.songs pl.songs := by
  have hs := load_print_songs pl cache h
  refine ⟨?_, hs, ?_⟩
  · unfold Playlist.getCount
    rw [hs, List.length_map]
  · rw [hs, List.forall₂_map_left_iff]
    apply List.forall₂_same.2
    intro e _
    cases e <;> exact ⟨rfl, by simp [Song.reloaded]⟩

theorem print_load_round_trip_witness :
    (Playlist.new.load StdMap.empty
      ((Playlist.mk [Song.ProxySong "/a/f4".toList,
        Song.ConcreteSong "/b/f5".toList (Metadata.readFileMetadata "/b/f5".toList)]).print
          [])).1.songs =
      [Song.ProxySong "/a/f4".toList,
        Song.ConcreteSong "/b/f5".toList (Metadata.readFileMetadata "/b/f5".toList)] :=
  (print_load_round_trip
    (Playlist.mk [Song.ProxySong "/a/f4".toList,
      Song.ConcreteSong "/b/f5".toList (Metadata.readFileMetadata "/b/f5".toList)])
    StdMap.empty
    (by
      intro e he
      simp only [List.mem_cons, List.mem_singleton, List.not_mem_nil, or_false] at he
      rcases he with he | he
      · rw [he]; exact ⟨by decide, by decide, by decide, by decide⟩
      · rw [he]; exact ⟨by decide, by decide, by decide, by decide, by decide⟩)).2.1

/-- C13 (counterexample): a proxy song whose path holds the delimiter comes
back with the path cut at it, and a proxy song with an empty path does not
come back at all. -/
theorem round_trip_loses_paths :
    (Playlist.new.load StdMap.empty
      ((Playlist.mk [Song.ProxySong "a: b".toList]).print [])).1.songs =
        [Song.ProxySong "a".toList] ∧
    (Playlist.new.load StdMap.empty
      ((Playlist.mk [Song.ProxySong []]).print [])).1.getCount = 0 ∧
    (Playlist.mk [Song.ProxySong []]).getCount = 1 := by
  decide

/-! ## Metadata::readFileMetadata -/

theorem find_last_of_from_spec (chars s : Str) (i : Nat) (acc : Option Nat) :
    ((∀ c ∈ s, c ∉ chars) ∧ find_last_of_from chars s i acc = acc) ∨
    ∃ pre c post, s = pre ++ c :: post ∧ c ∈ chars ∧ (∀ d ∈ post, d ∉ chars) ∧
      find_last_of_from chars s i acc = some (i + pre.length) := by
  induction s generalizing i acc with
  | nil => left; exact ⟨fun c hc => (by cases hc), rfl⟩
  | cons c cs ih =>
    simp only [find_last_of_from]
    rcases ih (i + 1) (if c ∈ chars then some i else acc) with ⟨hno, hr⟩ | ⟨pre, d, post, hs, hd, hpost, hr⟩
    · by_cases hc : c ∈ chars
      · right
        refine ⟨[], c, cs, rfl, hc, hno, ?_⟩
        rw [hr, if_pos hc]
        rfl
      · left
        refine ⟨?_, by rw [hr, if_neg hc]⟩
        intro x hx
        rcases List.mem_cons.1 hx with e | e
        · rw [e]; exact hc
        · exact hno x e
    · right
      refine ⟨c :: pre, d, post, by rw [hs]; rfl, hd, hpost, ?_⟩
      rw [hr, List.length_cons]
      congr 1
      omega

theorem filename_spec (p : Str) :
    ((∀ c ∈ p, c ∉ ['/', '\\']) ∧ Metadata.filename p = p) ∨
    ∃ pre c, p = pre ++ c :: Metadata.filename p ∧ c ∈ ['/', '\\'] ∧
      ∀ d ∈ Metadata.filename p, d ∉ ['/', '\\'] := by
  unfold Metadata.filename find_last_of
  rcases find_last_of_from_spec ['/', '\\'] p 0 none with ⟨hno, hr⟩ | ⟨pre, c, post, hs, hc, hpost, hr⟩
  · left
    rw [hr]
    exact ⟨hno, rfl⟩
  · right
    rw [hr]
    have hd : substrFrom p (0 + pre.length + 1) = post := by
      unfold substrFrom
      rw [hs]
      have : 0 + pre.length + 1 = (pre ++ [c]).length := by simp
      rw [this, show pre ++ c :: post = (pre ++ [c]) ++ post by simp, List.drop_left]
    simp only [hd]
    exact ⟨pre, c, hs, hc, hpost⟩

theorem readFileMetadata_entries (p : Str) :
    (Metadata.readFileMetadata p).entries =
      [("album".toList, "The Album".toList), ("artist".toList, "Some One".toList),
        ("copyright".toList, "Some One".toList), ("title".toList, Metadata.filename p)] := rfl

/-- C22: `readFileMetadata(p)` returns the map with exactly the four entries
copyright = `Some One`, artist = `Some One`, album = `The Album` and title =
the filename of `p`; the filename holds no `/` and no `\`, `p` is a prefix
followed by the filename, the prefix being empty or ending in `/` or `\`, and
the filename is all of `p` when `p` holds neither character. -/
theorem readFileMetadata_four_keys (p : Str) :
    (Metadata.readFileMetadata p).entries =
      [("album".toList, "The Album".toList), ("artist".toList, "Some One".toList),
        ("copyright".toList, "Some One".toList), ("title".toList, Metadata.filename p)] ∧
    (Metadata.readFileMetadata p).size = 4 ∧
    (Metadata.readFileMetadata p).find "copyright".toList = some "Some One".toList ∧
    (Metadata.readFileMetadata p).find "artist".toList = some "Some One".toList ∧
    (Metadata.readFileMetadata p).find "album".toList = some "The Album".toList ∧
    (Metadata.readFileMetadata p).find "title".toList = some (Metadata.filename p) ∧
    (∀ k : Str, k ≠ "copyright".toList → k ≠ "artist".toList → k ≠ "album".toList →
      k ≠ "title".toList → (Metadata.readFileMetadata p).find k = none) ∧
    '/' ∉ Metadata.filename p ∧ '\\' ∉ Metadata.filename p ∧
    (∃ pre, p = pre ++ Metadata.filename p ∧
      (pre = [] ∨ ∃ pre' c, pre = pre' ++ [c] ∧ (c = '/' ∨ c = '\\'))) ∧
    ((∀ c ∈ p, c ≠ '/' ∧ c ≠ '\\') → Metadata.filename p = p) := by
  have he := readFileMetadata_entries p
  have hfind : ∀ k, (Metadata.readFileMetadata p).find k =
      findEntry k [("album".toList, "The Album".toList), ("artist".toList, "Some One".toList),
        ("copyright".toList, "Some One".toList), ("title".toList, Metadata.filename p)] := by
    intro k; unfold StdMap.find; rw [he]
  refine ⟨he, by unfold StdMap.size; rw [he]; rfl, ?_, ?_, ?_, ?_, ?_, ?_, ?_, ?_, ?_⟩
  · rw [hfind, findEntry_cons, if_neg (by decide), findEntry_cons, if_neg (by decide),
      findEntry_cons, if_pos rfl]
  · rw [hfind, findEntry_cons, if_neg (by decide), findEntry_cons, if_pos rfl]
  · rw [hfind, findEntry_cons, if_pos rfl]
  · rw [hfind, findEntry_cons, if_neg (by decide), findEntry_cons, if_neg (by decide),
      findEntry_cons, if_neg (by decide), findEntry_cons, if_pos rfl]
  · intro k h1 h2 h3 h4
    rw [hfind, findEntry_cons, if_neg (fun e => h3 e.symm), findEntry_cons,
      if_neg (fun e => h2 e.symm), findEntry_cons, if_neg (fun e => h1 e.symm),
      findEntry_cons, if_neg (fun e => h4 e.symm)]
    rfl
  · rcases filename_spec p with ⟨hno, hf⟩ | ⟨pre, c, _, _, hpost⟩
    · rw [hf]; intro hm; exact hno _ hm (by simp)
    · intro hm; exact hpost _ hm (by simp)
  · rcases filename_spec p with ⟨hno, hf⟩ | ⟨pre, c, _, _, hpost⟩
    · rw [hf]; intro hm; exact hno _ hm (by simp)
    · intro hm; exact hpost _ hm (by simp)
  · rcases filename_spec p with ⟨_, hf⟩ | ⟨pre, c, hs, hc, _⟩
    · exact ⟨[], by rw [hf]; rfl, Or.inl rfl⟩
    · refine ⟨pre ++ [c], by simpa using hs, Or.inr ⟨pre, c, rfl, ?_⟩⟩
      simpa using hc
  · intro hp
    rcases filename_spec p with ⟨_, hf⟩ | ⟨pre, c, hs, hc, _⟩
    · exact hf
    · exfalso
      have hcp : c ∈ p := by rw [hs]; simp
      have := hp c hcp
      simp only [List.mem_cons, List.mem_singleton, List.not_mem_nil, or_false] at hc
      rcases hc with e | e
      · exact this.1 e
      · exact this.2 e

theorem readFileMetadata_four_keys_witness :
    Metadata.filename "file1.mp3".toList = "file1.mp3".toList :=
  (readFileMetadata_four_keys "file1.mp3".toList).2.2.2.2.2.2.2.2.2.2 (by decide)

/-! ## Clearing the cache, printing and moving a playlist -/

/-- The call `Metadata::clear()` in a client that holds a playlist: the cache
map is emptied; the songs keep their containers through their own shared
pointers. -/
def clearCache (st : Playlist × Cache) : Playlist × Cache := (st.1, Metadata.clear st.2)

/-- C21: `Metadata::clear()` leaves a cache with count 0 and the playlist as
it was, entries and printed text; a playlist whose entries are all concrete
songs is printed as before and `evaluate()` on it returns the same playlist
and leaves the cleared cache empty. -/
theorem clear_keeps_playlists (pl : Playlist) (cache : Cache) (os : Str) :
    Metadata.getCount (Metadata.clear cache) = 0 ∧
    Metadata.getCount (clearCache (pl, cache)).2 = 0 ∧
    (clearCache (pl, cache)).1 = pl ∧
    (clearCache (pl, cache)).1.print os = pl.print os ∧
    ((∀ e ∈ pl.songs, ∃ p m, e = Song.ConcreteSong p m) →
      (pl.evaluate (Metadata.clear cache)).1 = pl ∧
      (pl.evaluate (Metadata.clear cache)).1.print os = pl.print os ∧
      Metadata.getCount (pl.evaluate (Metadata.clear cache)).2 = 0) ∧
    ((pl.evaluate cache).1.evaluate (Metadata.clear (pl.evaluate cache).2)).1 =
      (pl.evaluate cache).1 ∧
    Metadata.getCount
      ((pl.evaluate cache).1.evaluate (Metadata.clear (pl.evaluate cache).2)).2 = 0 := by
  refine ⟨rfl, rfl, rfl, rfl, ?_, ?_, ?_⟩
  · intro h
    rw [evaluate_of_concrete pl _ h]
    exact ⟨rfl, rfl, rfl⟩
  · rw [evaluate_of_concrete _ _ (evaluate_all_concrete pl cache)]
  · rw [evaluate_of_concrete _ _ (evaluate_all_concrete pl cache)]
    rfl

theorem clear_keeps_playlists_witness :
    ((Playlist.mk [Song.ConcreteSong ['f'] (Metadata.readFileMetadata ['f'])]).evaluate
        (Metadata.clear (Metadata.getFileMetadata StdMap.empty ['f']).2)).1 =
      Playlist.mk [Song.ConcreteSong ['f'] (Metadata.readFileMetadata ['f'])] ∧
    Metadata.getCount
      ((Playlist.mk [Song.ConcreteSong ['f'] (Metadata.readFileMetadata ['f'])]).evaluate
        (Metadata.clear (Metadata.getFileMetadata StdMap.empty ['f']).2)).2 = 0 :=
  have h := (clear_keeps_playlists
    (Playlist.mk [Song.ConcreteSong ['f'] (Metadata.readFileMetadata ['f'])])
    (Metadata.getFileMetadata StdMap.empty ['f']).2 []).2.2.2.2.1
    (by
      intro e he
      simp only [List.mem_singleton] at he
      exact ⟨_, _, he⟩)
  ⟨h.1, h.2.2⟩

/-- The `operator<<(std::ostream&, const Song&)`: the text of the stream
after the insertion. -/
def Song.opInsert (stream : Str) (song : Song) : Str := song.print stream

/-- The `operator<<(std::ostream&, const Playlist&)`: the text of the stream
after the insertion. -/
def Playlist.opInsert (os : Str) (pl : Playlist) : Str := pl.print os

theorem unlines_eq_flatMap (ls : List Str) : unlines ls = ls.flatMap (fun l => l ++ ['\n']) := by
  induction ls with
  | nil => rfl
  | cons l rest ih => simp [unlines, ih, List.flatMap_cons]

/-- C23: `print` on a playlist appends to the stream, for each song from the
first to the last, the printed form of the song followed by one line break
(nothing for an empty playlist), and `operator<<` on the playlist writes the
same text. -/
theorem print_writes_each_song_on_a_line (pl : Playlist) (os : Str) :
    pl.print os = os ++ pl.songs.flatMap (fun e => e.print [] ++ ['\n']) ∧
    pl.print [] = pl.songs.flatMap (fun e => Song.opInsert [] e ++ ['\n']) ∧
    Playlist.new.print os = os ∧
    Playlist.opInsert os pl = pl.print os := by
  have h : ∀ os : Str, pl.print os = os ++ pl.songs.flatMap (fun e => e.print [] ++ ['\n']) := by
    intro os
    unfold Playlist.print
    rw [printLoop_eq, unlines_eq_flatMap, List.flatMap_map]
  refine ⟨h os, ?_, rfl, rfl⟩
  rw [h []]
  rfl

/-- The move assignment `this = std::move(pl)`: the object `this` and the
object `pl` after the call; `sameObject` says whether `this == &pl`. -/
def Playlist.moveAssign (this pl : Playlist) (sameObject : Bool) : Playlist × Playlist :=
  if sameObject then (this, pl)
  else
    let songs := pl.songs
    (⟨songs⟩, ⟨[]⟩)

/-- The move constructor `Playlist(Playlist&& pl)`: the new object and the
object `pl` after the call. -/
def Playlist.moveConstruct (pl : Playlist) : Playlist × Playlist :=
  let songs := pl.songs
  (⟨songs⟩, ⟨[]⟩)

/-- C24: the move assignment between two distinct playlists and the move
construction leave the destination with exactly the former songs of the
source, in order, whatever the destination held, and the source with count 0;
a self move-assignment changes nothing. -/
theorem move_transfers_songs (dst src : Playlist) :
    (dst.moveAssign src false).1 = src ∧
    (dst.moveAssign src false).1.songs = src.songs ∧
    (dst.moveAssign src false).2.getCount = 0 ∧
    src.moveConstruct.1.songs = src.songs ∧
    src.moveConstruct.2.getCount = 0 ∧
    dst.moveAssign dst true = (dst, dst) := by
  refine ⟨rfl, rfl, rfl, rfl, rfl, rfl⟩

/-! ## Resolution is one-way -/

theorem getElem?_append_of_some (l l' : List Song) (i : Nat) (e : Song) (h : l[i]? = some e) :
    (l ++ l')[i]? = some e := by
  obtain ⟨hi, _⟩ := List.getElem?_eq_some.1 h
  rw [List.getElem?_append_left hi, h]

theorem loadLine_keeps_songs (line : Str) (st : Playlist × Cache) :
    (Playlist.loadLine line st).1.songs = st.1.songs ∨
      ∃ song, True ∧ (Playlist.loadLine line st).1.songs = st.1.songs ++ [song] := by
  rcases split_first line with hno | ⟨pre, rest, hl, hpre⟩
  · left; rw [loadLine_no_delim line st hno]
  · by_cases hrest : rest = []
    · left
      rw [hl, hrest, List.append_nil, loadLine_nothing_after pre st hpre]
    · obtain ⟨path, hpath⟩ := path_of_rest rest
      rw [hl, loadLine_split pre rest path st hpre hrest hpath]
      by_cases h1 : pre = "ProxySong".toList
      · right
        rw [if_pos h1]
        exact ⟨Song.ProxySong path, trivial, add_songs _ _⟩
      · rw [if_neg h1]
        by_cases h2 : pre = "ConcreteSong".toList
        · right
          rw [if_pos h2]
          exact ⟨Song.ConcreteSong path _, trivial, add_songs _ _⟩
        · left
          rw [if_neg h2]

theorem load_keeps_songs (pl : Playlist) (cache : Cache) (text : Str) :
    ∃ new, (pl.load cache text).1.songs = pl.songs ++ new := by
  unfold Playlist.load
  rw [loadLoop_eq _ _ _ (Nat.lt_succ_self _)]
  obtain ⟨new, hnew, _⟩ := foldl_loadLine_appends (fun _ => True) (textLines text) (pl, cache)
    (fun line _ st => loadLine_keeps_songs line st)
  exact ⟨new, hnew⟩

theorem copy_songs (pl : Playlist) : pl.copy.songs = pl.songs := by
  unfold Playlist.copy
  rw [copyAssign_songs]
  rfl

/-- C25: the entry at a position keeps its class, path and metadata under
`add`, the copy constructor, `clone()` and `load`, and `remove` only erases
entries (`has` and `print` only read the songs); `evaluate()` and
`evaluate(song)` leave a concrete song at the position of any entry, with the
entry's path, and when the entry was a concrete song they leave it as it was,
with the same metadata. So a concrete entry never becomes a proxy song, and a
proxy entry becomes a concrete song only in `evaluate()` or
`evaluate(song)`. -/
theorem resolution_is_one_way (pl : Playlist) (cache : Cache) (s : Song) (text : Str)
    (i : Nat) (e : Song) (h : pl.songs[i]? = some e) :
    (pl.add s).songs[i]? = some e ∧
    pl.copy.songs[i]? = some e ∧
    pl.clone.songs[i]? = some e ∧
    (pl.load cache text).1.songs[i]? = some e ∧
    (pl.remove s).songs.Sublist pl.songs ∧
    (∃ md, (pl.evaluate cache).1.songs[i]? = some (Song.ConcreteSong e.getPath md)) ∧
    ((pl.evaluateSong s cache).1.songs[i]? = some e ∨
      ∃ md, (pl.evaluateSong s cache).1.songs[i]? = some (Song.ConcreteSong e.getPath md)) ∧
    (∀ p m, e = Song.ConcreteSong p m →
      (pl.evaluate cache).1.songs[i]? = some (Song.ConcreteSong p m) ∧
      (pl.evaluateSong s cache).1.songs[i]? = some (Song.ConcreteSong p m)) := by
  have hev : (pl.evaluate cache).1.songs[i]? =
      some (Song.ConcreteSong e.getPath (e.evaluate cache).1) := by
    show (Playlist.evaluateLoop pl.songs [] cache).1[i]? = _
    rw [evaluateLoop_eq_map pl.songs cache cache (cacheExtends_refl cache),
      List.getElem?_map, h]
    rfl
  have hes : (pl.evaluateSong s cache).1.songs[i]? =
      some (if e.opEq s then Song.ConcreteSong e.getPath (e.evaluate cache).1 else e) := by
    show (Playlist.evaluateSongLoop s pl.songs 0 cache).1[i]? = _
    rw [evaluateSongLoop_eq_map s pl.songs 0 cache cache (cacheExtends_refl cache),
      List.getElem?_map, h]
    rfl
  refine ⟨?_, ?_, ?_, ?_, ?_, ⟨_, hev⟩, ?_, ?_⟩
  · exact getElem?_append_of_some _ _ i e h
  · rw [copy_songs]; exact h
  · show pl.copy.songs[i]? = some e
    rw [copy_songs]; exact h
  · obtain ⟨new, hnew⟩ := load_keeps_songs pl cache text
    rw [hnew]
    exact getElem?_append_of_some _ _ i e h
  · show (Playlist.removeLoop s pl.songs).Sublist pl.songs
    rw [removeLoop_eq_filter]
    exact List.filter_sublist _
  · rw [hes]
    by_cases hm : e.opEq s = true
    · right; exact ⟨_, by rw [if_pos hm]⟩
    · left; rw [if_neg hm]
  · intro p m he
    subst he
    refine ⟨hev, ?_⟩
    rw [hes]
    by_cases hm : (Song.ConcreteSong p m).opEq s = true
    · rw [if_pos hm]; rfl
    · rw [if_neg hm]

theorem resolution_is_one_way_witness :
    ((Playlist.mk [Song.ConcreteSong ['f'] (Metadata.readFileMetadata ['g']),
        Song.ProxySong ['h']]).evaluate StdMap.empty).1.songs[0]? =
      some (Song.ConcreteSong ['f'] (Metadata.readFileMetadata ['g'])) ∧
    ((Playlist.mk [Song.ConcreteSong ['f'] (Metadata.readFileMetadata ['g']),
        Song.ProxySong ['h']]).evaluateSong (Song.ProxySong ['f']) StdMap.empty).1.songs[0]? =
      some (Song.ConcreteSong ['f'] (Metadata.readFileMetadata ['g'])) :=
  (resolution_is_one_way
    (Playlist.mk [Song.ConcreteSong ['f'] (Metadata.readFileMetadata ['g']),
      Song.ProxySong ['h']])
    StdMap.empty (Song.ProxySong ['f']) [] 0
    (Song.ConcreteSong ['f'] (Metadata.readFileMetadata ['g'])) (by decide)).2.2.2.2.2.2.2
    ['f'] (Metadata.readFileMetadata ['g']) rfl

/-! ## Equality is not transitive, and membership can appear -/

/-- C26: song equality is not transitive: a concrete song at `/x/f`, a
concrete song at `/y/f` with the same metadata and a proxy song at `/y/f` are
equal in turn, but the first is not equal to the third; likewise a proxy song
at `/x/f`, a concrete song at `/x/f` and a concrete song at `/y/f` with the
same metadata. -/
theorem opEq_not_transitive :
    (∃ a b c : Song, a.opEq b = true ∧ b.opEq c = true ∧ a.opEq c = false) ∧
    ((Song.ConcreteSong "/x/f".toList (Metadata.readFileMetadata "/x/f".toList)).opEq
        (Song.ConcreteSong "/y/f".toList (Metadata.readFileMetadata "/y/f".toList)) = true ∧
      (Song.ConcreteSong "/y/f".toList (Metadata.readFileMetadata "/y/f".toList)).opEq
        (Song.ProxySong "/y/f".toList) = true ∧
      (Song.ConcreteSong "/x/f".toList (Metadata.readFileMetadata "/x/f".toList)).opEq
        (Song.ProxySong "/y/f".toList) = false) ∧
    ((Song.ProxySong "/x/f".toList).opEq
        (Song.ConcreteSong "/x/f".toList (Metadata.readFileMetadata "/x/f".toList)) = true ∧
      (Song.ConcreteSong "/x/f".toList (Metadata.readFileMetadata "/x/f".toList)).opEq
        (Song.ConcreteSong "/y/f".toList (Metadata.readFileMetadata "/y/f".toList)) = true ∧
      (Song.ProxySong "/x/f".toList).opEq
        (Song.ConcreteSong "/y/f".toList (Metadata.readFileMetadata "/y/f".toList)) = false) := by
  have h1 : (Song.ConcreteSong "/x/f".toList (Metadata.readFileMetadata "/x/f".toList)).opEq
        (Song.ConcreteSong "/y/f".toList (Metadata.readFileMetadata "/y/f".toList)) = true ∧
      (Song.ConcreteSong "/y/f".toList (Metadata.readFileMetadata "/y/f".toList)).opEq
        (Song.ProxySong "/y/f".toList) = true ∧
      (Song.ConcreteSong "/x/f".toList (Metadata.readFileMetadata "/x/f".toList)).opEq
        (Song.ProxySong "/y/f".toList) = false := by decide
  exact ⟨⟨_, _, _, h1⟩, h1, by decide⟩

/-- C27: `evaluate()` can make `has(s)` true where it was false: for the
playlist of one proxy song at `/a/f` and the concrete song `s` at `/b/f` with
the reader's metadata, `has(s)` is false before `evaluate()` (the paths
differ) and true after it (the metadata are equal). -/
theorem evaluate_can_create_membership :
    (Playlist.mk [Song.ProxySong "/a/f".toList]).has
      (Song.ConcreteSong "/b/f".toList (Metadata.readFileMetadata "/b/f".toList)) = false ∧
    ((Playlist.mk [Song.ProxySong "/a/f".toList]).evaluate StdMap.empty).1.has
      (Song.ConcreteSong "/b/f".toList (Metadata.readFileMetadata "/b/f".toList)) = true ∧
    ∃ (pl : Playlist) (s : Song) (cache : Cache),
      pl.has s = false ∧ (pl.evaluate cache).1.has s = true := by
  have h : (Playlist.mk [Song.ProxySong "/a/f".toList]).has
      (Song.ConcreteSong "/b/f".toList (Metadata.readFileMetadata "/b/f".toList)) = false ∧
    ((Playlist.mk [Song.ProxySong "/a/f".toList]).evaluate StdMap.empty).1.has
      (Song.ConcreteSong "/b/f".toList (Metadata.readFileMetadata "/b/f".toList)) = true := by
    decide
  exact ⟨h.1, h.2, _, _, _, h⟩

/-! ## The cache invariant -/

/-- The states the static cache can be in: empty at program start, then
changed by `getFileMetadata`, by `clear`, and by `load`, `evaluate()` and
`evaluate(song)` on any playlist. -/
inductive ProgramReachable : Cache → Prop where
  | init : ProgramReachable StdMap.empty
  | getFileMetadata (c : Cache) (p : Str) :
      ProgramReachable c → ProgramReachable (Metadata.getFileMetadata c p).2
  | clear (c : Cache) : ProgramReachable c → ProgramReachable (Metadata.clear c)
  | load (c : Cache) (pl : Playlist) (text : Str) :
      ProgramReachable c → ProgramReachable (pl.load c text).2
  | evaluate (c : Cache) (pl : Playlist) :
      ProgramReachable c → ProgramReachable (pl.evaluate c).2
  | evaluateSong (c : Cache) (pl : Playlist) (s : Song) :
      ProgramReachable c → ProgramReachable (pl.evaluateSong s c).2.1

theorem reachable_evaluate (e : Song) (c : Cache) (h : Metadata.Reachable c) :
    Metadata.Reachable (e.evaluate c).2 := by
  cases e with
  | ProxySong p => exact Metadata.Reachable.getFileMetadata c p h
  | ConcreteSong p m => exact h

theorem reachable_evaluateLoop (songs : List Song) (c : Cache) (h : Metadata.Reachable c) :
    Metadata.Reachable (Playlist.evaluateLoop songs [] c).2 := by
  induction songs generalizing c with
  | nil => exact h
  | cons e rest ih =>
    rw [evaluateLoop_cons]
    exact ih _ (reachable_evaluate e c h)

theorem reachable_evaluateSongLoop (s : Song) (songs : List Song) (i : Nat) (c : Cache)
    (h : Metadata.Reachable c) :
    Metadata.Reachable (Playlist.evaluateSongLoop s songs i c).2.1 := by
  induction songs generalizing i c with
  | nil => exact h
  | cons e rest ih =>
    rw [evaluateSongLoop_cons]
    by_cases he : e.opEq s = true
    · rw [if_pos he]; exact ih _ _ (reachable_evaluate e c h)
    · rw [if_neg he]; exact ih _ _ h

theorem reachable_loadLine (line : Str) (st : Playlist × Cache) (h : Metadata.Reachable st.2) :
    Metadata.Reachable (Playlist.loadLine line st).2 := by
  rw [loadLine_unfold]
  cases find line delim 0 with
  | none => exact h
  | some pos =>
    simp only
    split_ifs
    · exact h
    · exact h
    · exact Metadata.Reachable.getFileMetadata _ _ h
    · exact h

theorem reachable_foldl_loadLine (lines : List Str) (st : Playlist × Cache)
    (h : Metadata.Reachable st.2) :
    Metadata.Reachable (lines.foldl (fun st line => Playlist.loadLine line st) st).2 := by
  induction lines generalizing st with
  | nil => exact h
  | cons l rest ih =>
    simp only [List.foldl_cons]
    exact ih _ (reachable_loadLine l st h)

theorem reachable_load (pl : Playlist) (c : Cache) (text : Str) (h : Metadata.Reachable c) :
    Metadata.Reachable (pl.load c text).2 := by
  unfold Playlist.load
  rw [loadLoop_eq _ _ _ (Nat.lt_succ_self _)]
  exact reachable_foldl_loadLine _ _ h

theorem reachable_of_programReachable (c : Cache) (h : ProgramReachable c) :
    Metadata.Reachable c := by
  induction h with
  | init => exact Metadata.Reachable.init
  | getFileMetadata c p _ ih => exact Metadata.Reachable.getFileMetadata c p ih
  | clear c _ ih => exact Metadata.Reachable.clear c ih
  | load c pl text _ ih => exact reachable_load pl c text ih
  | evaluate c pl _ ih => exact reachable_evaluateLoop pl.songs c ih
  | evaluateSong c pl s _ ih => exact reachable_evaluateSongLoop s pl.songs 0 c ih

/-- C28: in every state of the cache reached from the empty cache by
`getFileMetadata`, `clear`, `load`, `evaluate()` and `evaluate(song)`, a
cached path maps to `readFileMetadata` of that path. -/
theorem cache_holds_reader_results (c : Cache) (h : ProgramReachable c) (p : Str)
    (m : MetaContainer) (hf : c.find p = some m) : m = Metadata.readFileMetadata p :=
  reachable_find c (reachable_of_programReachable c h) p m hf

theorem cache_holds_reader_results_witness :
    Metadata.readFileMetadata ['f'] = Metadata.readFileMetadata ['f'] ∧
    ((Playlist.mk [Song.ProxySong ['f']]).evaluate StdMap.empty).2.find ['f'] =
      some (Metadata.readFileMetadata ['f']) :=
  ⟨cache_holds_reader_results ((Playlist.mk [Song.ProxySong ['f']]).evaluate StdMap.empty).2
      (ProgramReachable.evaluate StdMap.empty (Playlist.mk [Song.ProxySong ['f']])
        ProgramReachable.init)
      ['f'] (Metadata.readFileMetadata ['f']) (by decide),
    by decide⟩

/-! ## Cache growth under evaluate(song) -/

theorem proxy_opEq_path (p : Str) (s : Song) (h : (Song.ProxySong p).opEq s = true) :
    p = s.getPath := by
  cases s with
  | ProxySong q => simpa [Song.opEq, Song.getPath] using h
  | ConcreteSong q n => simpa [Song.opEq, Song.baseEq, Song.getPath] using h

theorem getFileMetadata_twice (c : Cache) (p : Str) :
    (Metadata.getFileMetadata (Metadata.getFileMetadata c p).2 p).2 =
      (Metadata.getFileMetadata c p).2 := by
  rw [getFileMetadata_hit (Metadata.getFileMetadata c p).2 p (Metadata.getFileMetadata c p).1
    (by rw [getFileMetadata_find, if_pos rfl])]

theorem evaluate_matching_cache (e s : Song) (c : Cache) (h : e.opEq s = true) :
    (e.evaluate c).2 = c ∨ (e.evaluate c).2 = (Metadata.getFileMetadata c s.getPath).2 := by
  cases e with
  | ConcreteSong p m => left; rfl
  | ProxySong p =>
    right
    rw [← proxy_opEq_path p s h]
    rfl

theorem evaluateSongLoop_cache (s : Song) (songs : List Song) (i : Nat) (c : Cache) :
    (Playlist.evaluateSongLoop s songs i c).2.1 = c ∨
      (Playlist.evaluateSongLoop s songs i c).2.1 =
        (Metadata.getFileMetadata c s.getPath).2 := by
  induction songs generalizing i c with
  | nil => left; rfl
  | cons e rest ih =>
    rw [evaluateSongLoop_cons]
    by_cases he : e.opEq s = true
    · rw [if_pos he]
      rcases evaluate_matching_cache e s c he with h1 | h1
      · rw [h1]; exact ih _ _
      · rw [h1]
        right
        rcases ih (i + 1) (Metadata.getFileMetadata c s.getPath).2 with h2 | h2
        · exact h2
        · rw [h2, getFileMetadata_twice]
    · rw [if_neg he]; exact ih _ _

theorem evaluateSongLoop_cache_of_proxy (s : Song) (songs : List Song) (i : Nat) (c : Cache)
    (h : ∃ p, Song.ProxySong p ∈ songs ∧ (Song.ProxySong p).opEq s = true) :
    (Playlist.evaluateSongLoop s songs i c).2.1 = (Metadata.getFileMetadata c s.getPath).2 := by
  induction songs generalizing i c with
  | nil =>
    obtain ⟨p, hp, _⟩ := h
    cases hp
  | cons e rest ih =>
    obtain ⟨p, hp, hps⟩ := h
    rw [evaluateSongLoop_cons]
    rcases List.mem_cons.1 hp with hpe | hpr
    · subst hpe
      rw [if_pos hps]
      have h1 : ((Song.ProxySong p).evaluate c).2 = (Metadata.getFileMetadata c s.getPath).2 := by
        rw [← proxy_opEq_path p s hps]; rfl
      rw [h1]
      rcases evaluateSongLoop_cache s rest (i + 1) (Metadata.getFileMetadata c s.getPath).2
        with h2 | h2
      · exact h2
      · rw [h2, getFileMetadata_twice]
    · by_cases he : e.opEq s = true
      · rw [if_pos he]
        rcases evaluate_matching_cache e s c he with h1 | h1
        · rw [h1]; exact ih _ _ ⟨p, hpr, hps⟩
        · rw [h1, ih _ _ ⟨p, hpr, hps⟩, getFileMetadata_twice]
      · rw [if_neg he]; exact ih _ _ ⟨p, hpr, hps⟩

theorem getFileMetadata_count (c : Cache) (p : Str) :
    Metadata.getCount c ≤ Metadata.getCount (Metadata.getFileMetadata c p).2 ∧
    Metadata.getCount (Metadata.getFileMetadata c p).2 ≤ Metadata.getCount c + 1 := by
  cases hc : c.find p with
  | none =>
    rw [getFileMetadata_miss c p hc]
    unfold Metadata.getCount
    rw [StdMap.size_set_of_none c p _ hc]
    exact ⟨Nat.le_succ _, Nat.le_refl _⟩
  | some md =>
    rw [getFileMetadata_hit c p md hc]
    exact ⟨Nat.le_refl _, Nat.le_succ _⟩

/-- For an argument `s` outside the playlist: `evaluate(s)` leaves the cache
as it was or as one `getFileMetadata(s.getPath())` leaves it: every proxy entry equal to `s` has
the path of `s`, no other path is looked up, the count grows by at most one,
and from an empty cache with a proxy entry equal to `s` it is exactly 1. -/
theorem evaluateSong_adds_at_most_one_entry (pl : Playlist) (s : Song) (cache : Cache) :
    (∀ p, Song.ProxySong p ∈ pl.songs → (Song.ProxySong p).opEq s = true → p = s.getPath) ∧
    ((pl.evaluateSong s cache).2.1 = cache ∨
      (pl.evaluateSong s cache).2.1 = (Metadata.getFileMetadata cache s.getPath).2) ∧
    (∀ k, k ≠ s.getPath → (pl.evaluateSong s cache).2.1.find k = cache.find k) ∧
    Metadata.getCount cache ≤ Metadata.getCount (pl.evaluateSong s cache).2.1 ∧
    Metadata.getCount (pl.evaluateSong s cache).2.1 ≤ Metadata.getCount cache + 1 ∧
    ((∃ p, Song.ProxySong p ∈ pl.songs ∧ (Song.ProxySong p).opEq s = true) →
      Metadata.getCount (pl.evaluateSong s StdMap.empty).2.1 = 1) := by
  have hc : (pl.evaluateSong s cache).2.1 = cache ∨
      (pl.evaluateSong s cache).2.1 = (Metadata.getFileMetadata cache s.getPath).2 :=
    evaluateSongLoop_cache s pl.songs 0 cache
  refine ⟨fun p _ h => proxy_opEq_path p s h, hc, ?_, ?_, ?_, ?_⟩
  · intro k hk
    rcases hc with h | h
    · rw [h]
    · rw [h, getFileMetadata_find, if_neg hk]
  · rcases hc with h | h
    · rw [h]
    · rw [h]; exact (getFileMetadata_count cache s.getPath).1
  · rcases hc with h | h
    · rw [h]; exact Nat.le_succ _
    · rw [h]; exact (getFileMetadata_count cache s.getPath).2
  · intro h
    have := evaluateSongLoop_cache_of_proxy s pl.songs 0 StdMap.empty h
    show Metadata.getCount (Playlist.evaluateSongLoop s pl.songs 0 StdMap.empty).2.1 = 1
    rw [this, getFileMetadata_miss _ _ (empty_find _)]
    rfl

theorem evaluateSong_adds_at_most_one_entry_witness :
    Metadata.getCount
      ((Playlist.mk [Song.ProxySong "/p/file1.mp3".toList, Song.ProxySong "/p/file2.mp3".toList,
        Song.ProxySong "/p/file1.mp3".toList]).evaluateSong
          (Song.ProxySong "/p/file1.mp3".toList) StdMap.empty).2.1 = 1 :=
  (evaluateSong_adds_at_most_one_entry
    (Playlist.mk [Song.ProxySong "/p/file1.mp3".toList, Song.ProxySong "/p/file2.mp3".toList,
      Song.ProxySong "/p/file1.mp3".toList])
    (Song.ProxySong "/p/file1.mp3".toList) StdMap.empty).2.2.2.2.2
    ⟨"/p/file1.mp3".toList, by decide, by decide⟩

/-! ## Arguments that refer to an entry of the playlist -/

theorem removeLoopRef_outside (s : Song) (l : List Song) :
    Playlist.removeLoopRef s none l = some (Playlist.removeLoop s l) := by
  induction l with
  | nil => rfl
  | cons e rest ih =>
    by_cases he : e.opEq s = true
    · simp [Playlist.removeLoopRef, Playlist.removeLoop, he, Playlist.stepOwn, ih]
    · simp [Playlist.removeLoopRef, Playlist.removeLoop, he, Playlist.stepOwn, ih]

theorem removeLoopRef_entry (s : Song) (l : List Song) (k : Nat) (h : l[k]? = some s) :
    Playlist.removeLoopRef s (some k) l =
      if k + 1 = l.length then some (Playlist.removeLoop s l) else none := by
  induction l generalizing k with
  | nil => simp at h
  | cons e rest ih =>
    cases k with
    | zero =>
      have he : e = s := by simpa using h
      subst he
      cases rest with
      | nil => simp [Playlist.removeLoopRef, Playlist.removeLoop, opEq_self]
      | cons d ds => simp [Playlist.removeLoopRef, opEq_self]
    | succ j =>
      have hj : rest[j]? = some s := by simpa using h
      by_cases he : e.opEq s = true
      · simp only [Playlist.removeLoopRef, Playlist.removeLoop, he, if_true, Playlist.stepOwn,
          ih j hj, List.length_cons]
        simp
      · simp only [Playlist.removeLoopRef, Playlist.removeLoop, he, Playlist.stepOwn,
          ih j hj, List.length_cons]
        by_cases hl : j + 1 = rest.length
        · simp [hl]
        · simp [hl]

theorem removeRef_outside (pl : Playlist) (s : Song) :
    pl.removeRef (SongRef.outside s) = some (pl.remove s) := by
  simp [Playlist.removeRef, Playlist.remove, removeLoopRef_outside]

theorem removeRef_entry (pl : Playlist) (k : Nat) (s : Song) (h : pl.songs[k]? = some s) :
    pl.removeRef (SongRef.entry k) =
      if k + 1 = pl.songs.length then some (pl.remove s) else none := by
  simp only [Playlist.removeRef, h, removeLoopRef_entry s pl.songs k h, Playlist.remove]
  by_cases hl : k + 1 = pl.songs.length
  · simp [hl]
  · simp [hl]

theorem evaluateSongLoopRef_outside (s : Song) (l : List Song) (i : Nat) (c : Cache) :
    Playlist.evaluateSongLoopRef s none l i c = some (Playlist.evaluateSongLoop s l i c) := by
  induction l generalizing i c with
  | nil => rfl
  | cons e rest ih =>
    by_cases he : e.opEq s = true
    · simp [Playlist.evaluateSongLoopRef, Playlist.evaluateSongLoop, he, Playlist.stepOwn, ih]
    · simp [Playlist.evaluateSongLoopRef, Playlist.evaluateSongLoop, he, Playlist.stepOwn, ih]

theorem evaluateSongLoopRef_entry (s : Song) (l : List Song) (k i : Nat) (c : Cache)
    (h : l[k]? = some s) :
    Playlist.evaluateSongLoopRef s (some k) l i c =
      if k + 1 = l.length then some (Playlist.evaluateSongLoop s l i c) else none := by
  induction l generalizing k i c with
  | nil => simp at h
  | cons e rest ih =>
    cases k with
    | zero =>
      have he : e = s := by simpa using h
      subst he
      cases rest with
      | nil => simp [Playlist.evaluateSongLoopRef, Playlist.evaluateSongLoop, opEq_self]
      | cons d ds => simp [Playlist.evaluateSongLoopRef, opEq_self]
    | succ j =>
      have hj : rest[j]? = some s := by simpa using h
      by_cases he : e.opEq s = true
      · have h0 : ¬ ((some (j + 1) : Option Nat) = some 0) := by simp
        simp only [Playlist.evaluateSongLoopRef, Playlist.evaluateSongLoop, he, if_true,
          h0, if_false, Playlist.stepOwn, ih j _ _ hj, List.length_cons]
        by_cases hl : j + 1 = rest.length
        · rw [if_pos hl, if_pos (by omega)]
          rfl
        · rw [if_neg hl, if_neg (by omega)]
          rfl
      · simp only [Playlist.evaluateSongLoopRef, Playlist.evaluateSongLoop, he, Playlist.stepOwn,
          ih j _ _ hj, List.length_cons]
        by_cases hl : j + 1 = rest.length
        · simp [hl]
        · simp [hl]

theorem evaluateSongRef_outside (pl : Playlist) (s : Song) (c : Cache) :
    pl.evaluateSongRef (SongRef.outside s) c = some (pl.evaluateSong s c) := by
  simp [Playlist.evaluateSongRef, Playlist.evaluateSong, evaluateSongLoopRef_outside]

theorem evaluateSongRef_entry (pl : Playlist) (k : Nat) (s : Song) (c : Cache)
    (h : pl.songs[k]? = some s) :
    pl.evaluateSongRef (SongRef.entry k) c =
      if k + 1 = pl.songs.length then some (pl.evaluateSong s c) else none := by
  simp only [Playlist.evaluateSongRef, h, evaluateSongLoopRef_entry s pl.songs k 0 c h,
    Playlist.evaluateSong]
  by_cases hl : k + 1 = pl.songs.length
  · simp [hl]
  · simp [hl]

/-- C2: on the playlist `[A, A, B]` of proxy songs, `evaluate(A)` returns
references to the entries 0 and 1, now concrete songs; `remove(s)` with `s`
the first of these, the playlist's own entry 0, destroys the referent of `s`
at the first erase and then compares the next entry against it, so the call
has no defined result, where the same call with an equal song outside the
playlist leaves `[B]`. -/
theorem remove_own_entry_undefined :
    ((Playlist.mk [Song.ProxySong ['a'], Song.ProxySong ['a'], Song.ProxySong ['b']]).evaluateSong
      (Song.ProxySong ['a']) StdMap.empty).1 =
        Playlist.mk [Song.ConcreteSong ['a'] (Metadata.readFileMetadata ['a']),
          Song.ConcreteSong ['a'] (Metadata.readFileMetadata ['a']), Song.ProxySong ['b']] ∧
    ((Playlist.mk [Song.ProxySong ['a'], Song.ProxySong ['a'], Song.ProxySong ['b']]).evaluateSong
      (Song.ProxySong ['a']) StdMap.empty).2.2 = [0, 1] ∧
    (Playlist.mk [Song.ConcreteSong ['a'] (Metadata.readFileMetadata ['a']),
      Song.ConcreteSong ['a'] (Metadata.readFileMetadata ['a']), Song.ProxySong ['b']]).removeRef
        (SongRef.entry 0) = none ∧
    (Playlist.mk [Song.ConcreteSong ['a'] (Metadata.readFileMetadata ['a']),
      Song.ConcreteSong ['a'] (Metadata.readFileMetadata ['a']), Song.ProxySong ['b']]).removeRef
        (SongRef.outside (Song.ConcreteSong ['a'] (Metadata.readFileMetadata ['a']))) =
      some (Playlist.mk [Song.ProxySong ['b']]) := by
  decide

/-- C7: on the playlist `[A, A]` of proxy songs, `evaluate(A)` returns
references to the entries 0 and 1, now concrete songs; `evaluate(s)` with `s`
the first of these, the playlist's own entry 0, destroys the referent of `s`
when it replaces that entry and then compares the second entry against it, so
the call has no defined result, where the same call with an equal song
outside the playlist returns the two references again and keeps the
playlist. -/
theorem evaluateSong_own_entry_undefined :
    ((Playlist.mk [Song.ProxySong ['a'], Song.ProxySong ['a']]).evaluateSong
      (Song.ProxySong ['a']) StdMap.empty).1 =
        Playlist.mk [Song.ConcreteSong ['a'] (Metadata.readFileMetadata ['a']),
          Song.ConcreteSong ['a'] (Metadata.readFileMetadata ['a'])] ∧
    ((Playlist.mk [Song.ProxySong ['a'], Song.ProxySong ['a']]).evaluateSong
      (Song.ProxySong ['a']) StdMap.empty).2.2 = [0, 1] ∧
    (Playlist.mk [Song.ConcreteSong ['a'] (Metadata.readFileMetadata ['a']),
      Song.ConcreteSong ['a'] (Metadata.readFileMetadata ['a'])]).evaluateSongRef
        (SongRef.entry 0) StdMap.empty = none ∧
    ((Playlist.mk [Song.ConcreteSong ['a'] (Metadata.readFileMetadata ['a']),
      Song.ConcreteSong ['a'] (Metadata.readFileMetadata ['a'])]).evaluateSongRef
        (SongRef.outside (Song.ConcreteSong ['a'] (Metadata.readFileMetadata ['a'])))
        StdMap.empty).map (fun t => (t.1, t.2.2)) =
      some (Playlist.mk [Song.ConcreteSong ['a'] (Metadata.readFileMetadata ['a']),
          Song.ConcreteSong ['a'] (Metadata.readFileMetadata ['a'])], [0, 1]) := by
  decide

/-- C29: on the playlist `[A]` of one proxy song, `evaluate(A)` returns a
reference to the entry 0, now a concrete song; after `add(A)` and a cleared
cache, `evaluate(s)` with `s` that entry replaces the entry 0 and then
compares the entry 1 against the destroyed referent of `s`, so the call has no
defined result and leaves no cache to count, where the same call with an equal
song outside the playlist leaves a cache of count 1. -/
theorem evaluateSong_own_entry_leaves_no_cache :
    (((Playlist.mk [Song.ProxySong ['a']]).evaluateSong
      (Song.ProxySong ['a']) StdMap.empty).1.add (Song.ProxySong ['a'])) =
        Playlist.mk [Song.ConcreteSong ['a'] (Metadata.readFileMetadata ['a']),
          Song.ProxySong ['a']] ∧
    ((Playlist.mk [Song.ProxySong ['a']]).evaluateSong
      (Song.ProxySong ['a']) StdMap.empty).2.2 = [0] ∧
    ((Playlist.mk [Song.ConcreteSong ['a'] (Metadata.readFileMetadata ['a']),
      Song.ProxySong ['a']]).evaluateSongRef (SongRef.entry 0)
        (Metadata.clear StdMap.empty)).map (fun t => Metadata.getCount t.2.1) = none ∧
    ((Playlist.mk [Song.ConcreteSong ['a'] (Metadata.readFileMetadata ['a']),
      Song.ProxySong ['a']]).evaluateSongRef
        (SongRef.outside (Song.ConcreteSong ['a'] (Metadata.readFileMetadata ['a'])))
        (Metadata.clear StdMap.empty)).map (fun t => Metadata.getCount t.2.1) = some 1 := by
  decide

end OOJK
